import Mathlib

/-!
Cache simulators of ECS 154A HW5: a shallow embedding.

The development embeds `sacache.cpp` (4-way set-associative cache with LRU
replacement and write-back), `dmcache.cpp` (direct-mapped cache) and `vm.cpp`
(page table with clock replacement) and proves properties of the embedded
programs.

Modelling conventions
* C arrays (`RAM`, `CACHE`, `CacheLine::value`) are total functions from the
  index; on 16-bit addresses every index the programs compute is in bounds
  (`CACHE[set + i]` with `set ≤ 15`, `i ≤ 3`; `RAM[base + i]` with `base ≤ 65528`).
* Pointers into `CACHE` (`p_set`, `p_line`, `p_lru`) are indices into `CACHE`;
  `NULL` is `none`.
* Machine integers are natural numbers, reduced modulo `2 ^ w` wherever the C
  code converts to a narrower type (`unsigned short`, `byte`, `unsigned int`).
* The debugging output on `cout` and the `cin.get()` pause are not modelled.
-/

/-- Array store `a[i] = v` on an array modelled as a function. -/
def upd {α : Type} (a : Nat → α) (i : Nat) (v : α) : Nat → α :=
  fun k => if k = i then v else a k

/-- One record of a trace file: address, opcode (0 = read, anything else =
write) and value. -/
structure Rec where
  addr : Nat
  op : Nat
  val : Nat
  deriving DecidableEq, Repr

/-- The value of the most recent write to address `x` among the records
`earlier`, or 0 if `x` was never written. -/
def lastWrite (earlier : List Rec) (x : Nat) : Nat :=
  match earlier.reverse.find? (fun r => r.op ≠ 0 && r.addr = x) with
  | some r => r.val
  | none => 0

namespace dmcacheTest

/-- The array `memory[]` of the test generator `createOps` after it has emitted
the records of `trace`: zero-filled at first, `memory[address] = value` at each
write (an `unsigned char` array), which is the value it prints for a read. -/
def memory (trace : List Rec) : Nat → Nat :=
  trace.foldl (fun mem r => if r.op ≠ 0 then upd mem r.addr (r.val % 256) else mem) (fun _ => 0)

end dmcacheTest

namespace sacache

/-- `#define ADDRESS_OFFSET_BITS 3`. -/
def ADDRESS_OFFSET_BITS : Nat := 3
/-- `#define ADDRESS_SET_BITS 4`. -/
def ADDRESS_SET_BITS : Nat := 4
/-- `#define MASK_4_BITS 15`. -/
def MASK_4_BITS : Nat := 15
/-- `#define MASK_3_BITS 7`. -/
def MASK_3_BITS : Nat := 7
/-- `#define BLOCK_BYTES 8`. -/
def BLOCK_BYTES : Nat := 8
/-- `#define CACHE_WAYS 4`. -/
def CACHE_WAYS : Nat := 4

/-- Class `Address`: four `unsigned short` members. -/
structure Address where
  value : Nat
  tag : Nat
  set : Nat
  offset : Nat
  deriving DecidableEq, Repr

/-- Constructor `Address (unsigned short value)`; the argument is converted to
`unsigned short` at the call, and so is each member on assignment. -/
def Address.ofValue (v : Nat) : Address :=
  let value := v % 65536
  { value := value
    tag := (value >>> (ADDRESS_OFFSET_BITS + ADDRESS_SET_BITS)) % 65536
    set := ((value >>> ADDRESS_OFFSET_BITS) &&& MASK_4_BITS) % 65536
    offset := (value &&& MASK_3_BITS) % 65536 }

/-- Constructor `Address (int tag, int set)`; every member is an
`unsigned short`, so each assignment reduces modulo `2 ^ 16`. -/
def Address.ofTagSet (tag set : Nat) : Address :=
  { tag := tag % 65536
    set := set % 65536
    offset := 0
    value := ((tag <<< (ADDRESS_OFFSET_BITS + ADDRESS_SET_BITS)) ||| (set <<< ADDRESS_OFFSET_BITS)) % 65536 }

/-- Method `getTag`. -/
def Address.getTag (a : Address) : Nat := a.tag
/-- Method `getSet`. -/
def Address.getSet (a : Address) : Nat := a.set
/-- Method `getOffset`. -/
def Address.getOffset (a : Address) : Nat := a.offset
/-- Method `get`. -/
def Address.get (a : Address) : Nat := a.value
/-- Method `ramBlock`: `value & ~MASK_3_BITS`, computed in `int`
(`~7 = 0xFFFFFFF8` on the bits of a non-negative `int`) and converted to
`unsigned short`. -/
def Address.ramBlock (a : Address) : Nat := (a.value &&& 0xFFFFFFF8) % 65536

/-- Class `CacheOps::CacheLine`: `byte value[8]; bool dirty; unsigned int counter; byte tag`. -/
structure CacheLine where
  value : Nat → Nat
  dirty : Bool
  counter : Nat
  tag : Nat

/-- One line of `sa-out.txt` as `getLine` emits it for a read: the address
field together with the fill character of the stream at the moment the address
is written (`setw(4)` pads with it), the 8 bytes of the block in storage order
(index 0 = lowest address), the hit flag and the dirty flag. -/
structure OutLine where
  address : Nat
  addressFill : Char
  data : List Nat
  hit : Nat
  wasDirty : Nat
  deriving DecidableEq, Repr

/-- The global state of the program: `RAM`, `CacheOps::CACHE` and the stream
`output` (the lines written so far and its sticky fill character). -/
structure State where
  RAM : Nat → Nat
  CACHE : Nat → CacheLine
  output : List OutLine
  fill : Char

/-- Zero-initialised globals; a fresh stream pads with a blank. -/
def State.init : State :=
  { RAM := fun _ => 0
    CACHE := fun _ => { value := fun _ => 0, dirty := false, counter := 0, tag := 0 }
    output := []
    fill := ' ' }

/-- Local variables of the scan loop of `getLine`. -/
structure Scan where
  CACHE : Nat → CacheLine
  p_line : Option Nat
  p_lru : Nat

/-- One iteration of `for (int i = 0; i < CACHE_WAYS; i++)` in `getLine`. -/
def scanStep (address : Address) (p_set : Nat) (sc : Scan) (i : Nat) : Scan :=
  let old := sc.CACHE (p_set + i)
  let CACHE := upd sc.CACHE (p_set + i) { old with counter := (old.counter + 1) % 4294967296 }
  let p_line := if (CACHE (p_set + i)).tag = address.getTag then some (p_set + i) else sc.p_line
  let p_lru := if (CACHE (p_set + i)).counter > (CACHE sc.p_lru).counter then p_set + i else sc.p_lru
  { CACHE := CACHE, p_line := p_line, p_lru := p_lru }

/-- The scan loop of `getLine`, from `p_line = NULL`, `p_lru = p_set`. -/
def scan (address : Address) (CACHE : Nat → CacheLine) : Scan :=
  let p_set := address.getSet
  (List.range CACHE_WAYS).foldl (scanStep address p_set) { CACHE := CACHE, p_line := none, p_lru := p_set }

/-- Write-back loop `RAM[i + writebackAddress.get()] = p_line->value[i]`. -/
def writeBack (RAM : Nat → Nat) (base : Nat) (value : Nat → Nat) : Nat → Nat :=
  (List.range BLOCK_BYTES).foldl (fun ram i => upd ram (i + base) (value i)) RAM

/-- Refill loop `p_line->value[i] = RAM[address.ramBlock() + i]`. -/
def refill (RAM : Nat → Nat) (base : Nat) (value : Nat → Nat) : Nat → Nat :=
  (List.range BLOCK_BYTES).foldl (fun val i => upd val i (RAM (base + i))) value

/-- What `getLine` yields: the new global state, the returned pointer `p_line`
and the locals `cacheHit` and `wasDirty` (the two flags it prints for a read). -/
structure Access where
  state : State
  p_line : Nat
  cacheHit : Nat
  wasDirty : Nat

/-- Function `CacheOps::getLine`. -/
def getLine (s : State) (address : Address) (isRead : Bool) : Access :=
  let sc := scan address s.CACHE
  -- `output << uppercase << hex << setw(4) << address.get()`: padded with the current fill
  let addressFill := s.fill
  let cacheHit : Nat := if sc.p_line.isSome then 1 else 0
  let p_line : Nat := match sc.p_line with
    | some p => p
    | none => sc.p_lru
  let wasDirty : Nat := if (sc.CACHE p_line).dirty then 1 else 0
  let CACHE := upd sc.CACHE p_line { sc.CACHE p_line with counter := 0 }
  let miss : (Nat → Nat) × (Nat → CacheLine) :=
    if cacheHit = 0 then
      let wb : (Nat → Nat) × (Nat → CacheLine) :=
        if wasDirty ≠ 0 then
          let writebackAddress := Address.ofTagSet (CACHE p_line).tag address.getSet
          (writeBack s.RAM writebackAddress.get (CACHE p_line).value,
           upd CACHE p_line { CACHE p_line with dirty := false })
        else (s.RAM, CACHE)
      let RAM := wb.1
      let CACHE := wb.2
      -- `p_line->tag = address.getTag()` stores into a `byte`
      let CACHE := upd CACHE p_line { CACHE p_line with tag := address.getTag % 256 }
      let CACHE := upd CACHE p_line
        { CACHE p_line with value := refill RAM address.ramBlock (CACHE p_line).value }
      (RAM, CACHE)
    else (s.RAM, CACHE)
  let RAM := miss.1
  let CACHE := miss.2
  let out : List OutLine × Char :=
    if isRead then
      (s.output ++ [{ address := address.get, addressFill := addressFill,
                      data := (List.range BLOCK_BYTES).map (CACHE p_line).value,
                      hit := cacheHit, wasDirty := wasDirty }], '0')
    else (s.output, s.fill)
  { state := { RAM := RAM, CACHE := CACHE, output := out.1, fill := out.2 }
    p_line := p_line, cacheHit := cacheHit, wasDirty := wasDirty }

/-- Function `CacheOps::read`: the new state and the returned byte. -/
def read (s : State) (address : Address) : State × Nat :=
  let r := getLine s address true
  (r.state, (r.state.CACHE r.p_line).value address.getOffset)

/-- Function `CacheOps::write`; the parameter `value` is a `byte`. -/
def write (s : State) (address : Address) (value : Nat) : State :=
  let r := getLine s address false
  let CACHE := r.state.CACHE
  let p_line := r.p_line
  let CACHE := upd CACHE p_line
    { CACHE p_line with value := upd (CACHE p_line).value address.getOffset (value % 256) }
  let CACHE := upd CACHE p_line { CACHE p_line with tag := address.getTag % 256 }
  let CACHE := upd CACHE p_line { CACHE p_line with dirty := true }
  { r.state with CACHE := CACHE }

/-- Body of the loop of `main` after the three extractions: build the
`Address` and dispatch on `if (opcode)`. -/
def dispatch (s : State) (r : Rec) : State :=
  let address := Address.ofValue r.addr
  if r.op ≠ 0 then write s address r.val else (read s address).1

/-- The records of a trace dispatched in order. -/
def run (s : State) (trace : List Rec) : State :=
  trace.foldl dispatch s

end sacache


namespace sacache

/-- The input file stream `input`: the characters not yet read and the state
bits `eofbit` and `failbit` of the stream. -/
structure IStream where
  rest : List Char
  eofbit : Bool
  failbit : Bool
  deriving DecidableEq, Repr

/-- White space as the `skipws` sentry of `operator>>` skips it. -/
def isSpace (c : Char) : Bool :=
  c = ' ' || c = '\n' || c = '\t' || c = '\r' || c = '\x0b' || c = '\x0c'

/-- Value of a hexadecimal digit, `none` for any other character. -/
def hexDigit (c : Char) : Option Nat :=
  if '0' ≤ c ∧ c ≤ '9' then some (c.toNat - '0'.toNat)
  else if 'a' ≤ c ∧ c ≤ 'f' then some (c.toNat - 'a'.toNat + 10)
  else if 'A' ≤ c ∧ c ≤ 'F' then some (c.toNat - 'A'.toNat + 10)
  else none

/-- Value of a run of hexadecimal digits, most significant first. -/
def hexValue (digits : List Char) : Nat :=
  digits.foldl (fun acc c => 16 * acc + (hexDigit c).getD 0) 0

/-- Extraction `input >> std::hex >> x` into an `unsigned short` whose current
value is `x`, as the standard library performs it on tokens that are plain runs
of hexadecimal digits (no sign, no `0x` prefix):
* a stream that is not `good()` only gets `failbit`, `x` is left as it is;
* white space is skipped; reaching the end of the file while skipping sets
  `eofbit` and `failbit` and leaves `x` as it is;
* otherwise the longest run of digits is consumed; an empty run sets `failbit`
  and stores 0; a value that does not fit stores 65535 and sets `failbit`;
  reaching the end of the file while reading digits sets `eofbit`. -/
def IStream.extract (inp : IStream) (x : Nat) : IStream × Nat :=
  if inp.eofbit || inp.failbit then ({ inp with failbit := true }, x)
  else
    let rest := inp.rest.dropWhile isSpace
    if rest.isEmpty then ({ rest := [], eofbit := true, failbit := true }, x)
    else
      let digits := rest.takeWhile (fun c => (hexDigit c).isSome)
      let rest := rest.dropWhile (fun c => (hexDigit c).isSome)
      if digits.isEmpty then ({ rest := rest, eofbit := false, failbit := true }, 0)
      else if hexValue digits > 65535 then
        ({ rest := rest, eofbit := rest.isEmpty, failbit := true }, 65535)
      else ({ rest := rest, eofbit := rest.isEmpty, failbit := false }, hexValue digits)

/-- The variables of `main` that change during the loop, with the globals. -/
structure Main where
  input : IStream
  addressInt : Nat
  opcode : Nat
  value : Nat
  count : Nat
  globals : State

/-- Body of `while (!input.eof())` in `main`: three extractions, `count ++`,
then the dispatch of whatever the three variables now hold. -/
def Main.body (m : Main) : Main :=
  let e1 := m.input.extract m.addressInt
  let e2 := e1.1.extract m.opcode
  let e3 := e2.1.extract m.value
  { input := e3.1
    addressInt := e1.2
    opcode := e2.2
    value := e3.2
    count := m.count + 1
    globals := dispatch m.globals ⟨e1.2, e2.2, e3.2⟩ }

/-- The loop `while (!input.eof())`, run for at most `fuel` iterations. -/
def Main.loop : Nat → Main → Main
  | 0, m => m
  | fuel + 1, m => if m.input.eofbit then m else Main.loop fuel (Main.body m)

/-- The variables of `main` when the loop is entered, on an input file that
could be opened: the three locals are uninitialised (`a`, `o`, `v` stand for
whatever they hold), `count = 0`, the globals are zero-initialised. -/
def Main.start (file : List Char) (a o v : Nat) : Main :=
  { input := { rest := file, eofbit := false, failbit := false }
    addressInt := a, opcode := o, value := v, count := 0, globals := State.init }

/-- Function `main` on an input file that could be opened, its loop bounded by
`fuel` iterations. -/
def main (file : List Char) (a o v : Nat) (fuel : Nat) : Main :=
  Main.loop fuel (Main.start file a o v)

end sacache

namespace dmcache

/-- `#define BLOCK_SIZE 8`. -/
def BLOCK_SIZE : Nat := 8

/-- Struct `CacheLine`: `unsigned long tag; uint8_t value[8]; uint8_t dirty`. -/
structure CacheLine where
  tag : Nat
  value : Nat → Nat
  dirty : Nat

/-- Struct `Address`: three `unsigned long` members. -/
structure Address where
  tag : Nat
  line : Nat
  offset : Nat
  deriving DecidableEq, Repr

/-- One line of `dm-out.txt`: address, the 8 bytes of the block in storage
order (index 0 = lowest address; the program prints index 7 first), hit flag,
dirty flag. -/
structure OutLine where
  address : Nat
  data : List Nat
  hit : Nat
  wasDirty : Nat
  deriving DecidableEq, Repr

/-- The globals of `dmcache.cpp`. -/
structure State where
  parsedAddr : Address
  curOp : Nat
  curVal : Nat
  curAddr : Nat
  CACHE : Nat → CacheLine
  RAM : Nat → Nat
  outfile : List OutLine

/-- Zero-initialised globals. -/
def State.init : State :=
  { parsedAddr := ⟨0, 0, 0⟩, curOp := 0, curVal := 0, curAddr := 0
    CACHE := fun _ => { tag := 0, value := fun _ => 0, dirty := 0 }
    RAM := fun _ => 0
    outfile := [] }

/-- Function `parseAddr` (`unsigned long` is 64 bits wide). -/
def parseAddr (address : Nat) : Address :=
  { offset := address &&& 7
    line := (address >>> 3) &&& 63
    tag := address >>> 9 }

/-- Function `writebackAndLoadIfNecessary`: the new globals and the returned `hit`. -/
def writebackAndLoadIfNecessary (s : State) : State × Nat :=
  let line := s.parsedAddr.line
  if (s.CACHE line).tag ≠ s.parsedAddr.tag then
    let s1 : State :=
      if (s.CACHE line).dirty ≠ 0 then
        let startOfPrevBlock :=
          ((((s.CACHE line).tag <<< 9) % 18446744073709551616) ||| ((line <<< 3) % 18446744073709551616))
        let RAM := (List.range BLOCK_SIZE).foldl
          (fun ram i => upd ram (startOfPrevBlock + i) ((s.CACHE line).value i)) s.RAM
        { s with RAM := RAM, CACHE := upd s.CACHE line { s.CACHE line with dirty := 0 } }
      else s
    -- `curAddr & ~7`: `~7` converted to `unsigned long`
    let startOfCurrBlock := s1.curAddr &&& 0xFFFFFFFFFFFFFFF8
    let value := (List.range BLOCK_SIZE).reverse.foldl
      (fun val i => upd val i (s1.RAM (startOfCurrBlock + i))) (s1.CACHE line).value
    let CACHE := upd s1.CACHE line { s1.CACHE line with value := value }
    let CACHE := upd CACHE line { CACHE line with tag := s1.parsedAddr.tag }
    ({ s1 with CACHE := CACHE }, 0)
  else (s, 1)

/-- Function `write`; the store into `value[]` converts `curVal` to `uint8_t`. -/
def write (s : State) : State :=
  let s := (writebackAndLoadIfNecessary s).1
  let line := s.parsedAddr.line
  let CACHE := upd s.CACHE line { s.CACHE line with tag := s.parsedAddr.tag }
  let CACHE := upd CACHE line
    { CACHE line with value := upd (CACHE line).value s.parsedAddr.offset (s.curVal % 256) }
  let CACHE := upd CACHE line { CACHE line with dirty := 1 }
  { s with CACHE := CACHE }

/-- Function `read`. -/
def read (s : State) : State :=
  let wasDirty := (s.CACHE s.parsedAddr.line).dirty
  let r := writebackAndLoadIfNecessary s
  let hit := r.2
  let s := r.1
  { s with outfile := s.outfile ++
      [{ address := s.curAddr
         data := (List.range BLOCK_SIZE).map (s.CACHE s.parsedAddr.line).value
         hit := hit, wasDirty := wasDirty }] }

/-- Body of the loop of `main` for one complete record: the globals `curAddr`,
`parsedAddr`, `curOp`, `curVal` are set, then `if (curOp) write(); else read();`. -/
def exec (s : State) (r : Rec) : State :=
  let s := { s with curAddr := r.addr }
  let s := { s with parsedAddr := parseAddr s.curAddr }
  let s := { s with curOp := r.op }
  let s := { s with curVal := r.val }
  if s.curOp ≠ 0 then write s else read s

/-- The records of a trace executed in order. -/
def run (s : State) (trace : List Rec) : State :=
  trace.foldl exec s

/-- The byte that cache and `RAM` together hold for the address `x`: the byte
in the line of `x` when that line stores the tag of `x`, the byte of `RAM`
otherwise. -/
def State.view (s : State) (x : Nat) : Nat :=
  if (s.CACHE (x / 8 % 64)).tag = x / 512 then (s.CACHE (x / 8 % 64)).value (x % 8)
  else s.RAM x

/-- Invariant of `dmcache` with respect to a memory content `mem`: stored tags
are 7-bit; the block of a clean line equals its block in `RAM`; and cache and
`RAM` together hold `mem`. -/
structure Inv (s : State) (mem : Nat → Nat) : Prop where
  tag_lt : ∀ l, l < 64 → (s.CACHE l).tag < 128
  clean : ∀ l, l < 64 → (s.CACHE l).dirty = 0 → ∀ i, i < 8 →
    s.RAM ((s.CACHE l).tag * 512 + l * 8 + i) = (s.CACHE l).value i
  view : ∀ x, x < 65536 → s.view x = mem x

end dmcache


namespace sacache

/-- Digits of `n` as `operator<<` prints an `int` under `hex` and `uppercase`
(both are sticky flags that `getLine` sets when it prints the address). -/
def hexText (n : Nat) : List Char :=
  (Nat.toDigits 16 n).map Char.toUpper

/-- A field printed under `setw(w)` with the fill character `fill`:
right-justified, padded on the left, never truncated. -/
def setw (w : Nat) (fill : Char) (field : List Char) : List Char :=
  List.replicate (w - field.length) fill ++ field

/-- The characters that `getLine` writes to `output` for a read:
`setw(4) << address << ' '` under the fill in force, then the bytes
`value[7]` down to `value[0]` under `setfill('0') << setw(2)`, then
`' ' << setw(1) << cacheHit << ' ' << setw(1) << wasDirty << endl`. -/
def OutLine.text (l : OutLine) : List Char :=
  setw 4 l.addressFill (hexText l.address) ++ [' '] ++
  l.data.reverse.foldr (fun b rest => setw 2 '0' (hexText b) ++ rest) [] ++
  [' '] ++ setw 1 '0' (hexText l.hit) ++ [' '] ++ setw 1 '0' (hexText l.wasDirty) ++ ['\n']

end sacache

/-- Array store `a[i] = v` on an array whose cells are named by integers. -/
def updZ {α : Type} (a : Int → α) (i : Int) (v : α) : Int → α :=
  fun k => if k = i then v else a k

namespace vm

/-- `#define PAGE_TABLE_LINES 16`. -/
def PAGE_TABLE_LINES : Nat := 16
/-- `#define RAM_FRAME_CT 4`. -/
def RAM_FRAME_CT : Nat := 4

/-- Class `PageTableEntry`: `unsigned long address; int frameNumber; int present`. -/
structure PageTableEntry where
  address : Nat
  frameNumber : Int
  present : Int
  deriving DecidableEq, Repr

/-- Class `RamEntry`: `unsigned long pageAddress; unsigned short use`. -/
structure RamEntry where
  pageAddress : Nat
  use : Nat
  deriving DecidableEq, Repr

/-- The globals of `vm.cpp`. The cells of `pageTable` are named by integers:
cells 0..15 are the array, any other cell is memory outside it, which the
program reaches when it subscripts with the `-1` of `find` (as `int`, or
converted to `unsigned long`, which addresses the same cell). The cells of
`RAM` are named by the value of the `unsigned long` subscript: cells 0..3 are
the array. A store through a subscript outside an array is kept as a store
into such a cell, apart from the cells of the arrays and from `cursor`; no
value is ever read from such a cell (see `accessPageTable`). `cursor` is an
`int` that starts at 0 and is only incremented; it is kept as a natural
number, and signed overflow is outside the model. -/
structure State where
  pageTable : Int → PageTableEntry
  RAM : Nat → RamEntry
  cursor : Nat

/-- Zero-initialised globals. -/
def State.zero : State :=
  { pageTable := fun _ => ⟨0, 0, 0⟩
    RAM := fun _ => ⟨0, 0⟩
    cursor := 0 }

/-- Function `init`: the 16 addresses read from the input file are stored in
`pageTable[0..15].address`. -/
def init (addresses : List Nat) (s : State) : State :=
  let pageTable := (List.range PAGE_TABLE_LINES).foldl
    (fun pt (i : Nat) => updZ pt (i : Int) { pt (i : Int) with address := addresses.getD i 0 })
    s.pageTable
  { s with pageTable := pageTable }

/-- Function `find`: the index of the first of the 16 entries whose address is
`address & ~0xfff` (the mask is `~0xfff` converted to `unsigned long`), `-1`
when there is none. -/
def find (pageTable : Int → PageTableEntry) (address : Nat) : Int :=
  let addressPrefix := address &&& 0xFFFFFFFFFFFFF000
  match (List.range PAGE_TABLE_LINES).find? (fun i => (pageTable i).address = addressPrefix) with
  | some i => i
  | none => -1

/-- Conversion of an `int` to `unsigned long`. -/
def toUnsignedLong (x : Int) : Nat :=
  (x % 18446744073709551616).toNat

/-- A run of `accessPageTable`: the globals it leaves, and the subscripts it
used on `pageTable` and on `RAM`, in the order of use. -/
structure Access where
  state : State
  pageTableIdx : List Int
  ramIdx : List Nat

/-- The loop `while (1)` of `accessPageTable`, run for at most `fuel`
iterations; `none` when the loop has not reached its `break` by then. -/
def clock (address : Nat) (pageNumber : Int) : Nat → Access → Option Access
  | 0, _ => none
  | fuel + 1, a =>
    let s := a.state
    let frameNumber := s.cursor % RAM_FRAME_CT
    let cursor := s.cursor + 1
    -- `RAM[frameNumber].use = !RAM[frameNumber].use`
    let RAM := upd s.RAM frameNumber
      { s.RAM frameNumber with use := if (s.RAM frameNumber).use ≠ 0 then 0 else 1 }
    if (RAM frameNumber).use ≠ 0 then
      let oldPageNumber := find s.pageTable (RAM frameNumber).pageAddress
      let pageTable := updZ s.pageTable oldPageNumber { s.pageTable oldPageNumber with present := 0 }
      let RAM := upd RAM frameNumber
        { RAM frameNumber with pageAddress := address &&& 0xFFFFFFFFFFFFF000 }
      let pageTable := updZ pageTable pageNumber { pageTable pageNumber with frameNumber := frameNumber }
      let pageTable := updZ pageTable pageNumber { pageTable pageNumber with present := 1 }
      some { state := { pageTable := pageTable, RAM := RAM, cursor := cursor }
             pageTableIdx := a.pageTableIdx ++ [oldPageNumber, pageNumber, pageNumber]
             ramIdx := a.ramIdx ++ [frameNumber, frameNumber, frameNumber, frameNumber, frameNumber] }
    else
      clock address pageNumber fuel
        { state := { s with RAM := RAM, cursor := cursor }
          pageTableIdx := a.pageTableIdx
          ramIdx := a.ramIdx ++ [frameNumber, frameNumber, frameNumber] }

/-- Function `accessPageTable`, its loop bounded by `fuel` iterations. There
is no result (`none`) when the loop has not reached its `break` within the
bound, and when `find` gives no index of the array for `address` (its page is
not listed, `pageNumber` is `-1`): `pageTable[pageNumber].present` is then
read from memory outside the array, a value that the globals do not
determine, and what the source does from there is outside the model. -/
def accessPageTable (fuel : Nat) (s : State) (address : Nat) : Option Access :=
  let pageNumber := find s.pageTable address
  if pageNumber < 0 ∨ (PAGE_TABLE_LINES : Int) ≤ pageNumber then none
  else if (s.pageTable pageNumber).present ≠ 0 then
    let frameNumber := toUnsignedLong (s.pageTable pageNumber).frameNumber
    some { state := { s with RAM := upd s.RAM frameNumber { s.RAM frameNumber with use := 1 } }
           pageTableIdx := [pageNumber, pageNumber]
           ramIdx := [frameNumber] }
  else
    clock address pageNumber fuel { state := s, pageTableIdx := [pageNumber], ramIdx := [] }

/-- A sequence of calls of `accessPageTable`, one per address of `trace`, as
the loop of `main` makes them, each with its loop bounded by `fuel`
iterations; `none` when a call has no result. -/
def accesses (fuel : Nat) : State → List Nat → Option State
  | s, [] => some s
  | s, address :: rest =>
    match accessPageTable fuel s address with
    | none => none
    | some r => accesses fuel r.state rest

/-- Residency invariant with respect to the 16 addresses loaded by `init`:
the entries 0..15 hold these addresses, and every entry marked present names a
frame in 0..3 whose `pageAddress` is the address of the entry. -/
structure Resident (addresses : List Nat) (s : State) : Prop where
  table : ∀ i : Nat, i < 16 → (s.pageTable i).address = addresses.getD i 0
  resident : ∀ i : Nat, i < 16 → (s.pageTable i).present ≠ 0 →
    ∃ f : Nat, f < 4 ∧ (s.pageTable i).frameNumber = f ∧
      (s.RAM f).pageAddress = (s.pageTable i).address

end vm

/-! ## Bit operations as arithmetic -/

theorem and_7_eq_mod (a : Nat) : a &&& 7 = a % 8 :=
  Nat.and_pow_two_sub_one_eq_mod a 3

theorem and_15_eq_mod (a : Nat) : a &&& 15 = a % 16 :=
  Nat.and_pow_two_sub_one_eq_mod a 4

theorem and_63_eq_mod (a : Nat) : a &&& 63 = a % 64 :=
  Nat.and_pow_two_sub_one_eq_mod a 6

/-- Masking with `~7` on `n + 3` bits clears the low three bits. -/
theorem and_not_7 (a n : Nat) (h : a < 2 ^ (n + 3)) :
    a &&& ((2 ^ n - 1) <<< 3) = a / 8 * 8 := by
  apply Nat.eq_of_testBit_eq
  intro i
  have e2 : a / 8 * 8 = (a >>> 3) <<< 3 := by
    rw [Nat.shiftRight_eq_div_pow, Nat.shiftLeft_eq]
  rw [Nat.testBit_and, Nat.testBit_shiftLeft, Nat.testBit_two_pow_sub_one, e2,
    Nat.testBit_shiftLeft, Nat.testBit_shiftRight]
  by_cases h3 : 3 ≤ i
  · have e3 : 3 + (i - 3) = i := by omega
    simp only [h3, e3, ge_iff_le, decide_True, Bool.true_and]
    by_cases hn : i - 3 < n
    · simp [hn]
    · have hlt : a < 2 ^ i :=
        lt_of_lt_of_le h (Nat.pow_le_pow_right (by decide) (by omega))
      simp [hn, Nat.testBit_lt_two_pow hlt]
  · simp [h3]

theorem and_FFFFFFF8 (a : Nat) (h : a < 4294967296) : a &&& 0xFFFFFFF8 = a / 8 * 8 :=
  and_not_7 a 29 h

theorem and_FFFFFFFFFFFFFFF8 (a : Nat) (h : a < 18446744073709551616) :
    a &&& 0xFFFFFFFFFFFFFFF8 = a / 8 * 8 :=
  and_not_7 a 61 h

/-- `(t << 7) | (s << 3)` is a sum when `s` fits in four bits. -/
theorem shl7_or_shl3 (t s : Nat) (hs : s < 16) : (t <<< 7) ||| (s <<< 3) = t * 128 + s * 8 := by
  have h := Nat.mul_add_lt_is_or (i := 7) (b := s * 8) (by omega) t
  rw [Nat.shiftLeft_eq, Nat.shiftLeft_eq, ← Nat.mul_comm (2 ^ 7) t, ← h]

/-- `(t << 9) | (l << 3)` is a sum when `l` fits in six bits. -/
theorem shl9_or_shl3 (t l : Nat) (hl : l < 64) : (t <<< 9) ||| (l <<< 3) = t * 512 + l * 8 := by
  have h := Nat.mul_add_lt_is_or (i := 9) (b := l * 8) (by omega) t
  rw [Nat.shiftLeft_eq, Nat.shiftLeft_eq, ← Nat.mul_comm (2 ^ 9) t, ← h]

/-- Or-ing an offset below 8 into a multiple of 8 adds it. -/
theorem mul8_or (x o : Nat) (ho : o < 8) : (x * 8) ||| o = x * 8 + o := by
  have h := Nat.mul_add_lt_is_or (i := 3) (b := o) (by omega) x
  rw [Nat.mul_comm x 8]
  exact h.symm

/-! ## Address decoding in `sacache` -/

namespace sacache

theorem Address.ofValue_tag (a : Nat) (ha : a < 65536) : (Address.ofValue a).tag = a / 128 := by
  simp only [Address.ofValue, ADDRESS_OFFSET_BITS, ADDRESS_SET_BITS, Nat.shiftRight_eq_div_pow]
  omega

theorem Address.ofValue_set (a : Nat) : (Address.ofValue a).set = a / 8 % 16 := by
  simp only [Address.ofValue, ADDRESS_OFFSET_BITS, MASK_4_BITS, Nat.shiftRight_eq_div_pow,
    and_15_eq_mod]
  omega

theorem Address.ofValue_offset (a : Nat) : (Address.ofValue a).offset = a % 8 := by
  simp only [Address.ofValue, MASK_3_BITS, and_7_eq_mod]
  omega

theorem Address.ofValue_value (a : Nat) (ha : a < 65536) : (Address.ofValue a).value = a := by
  simp only [Address.ofValue]
  omega

theorem Address.ofValue_ramBlock (a : Nat) (ha : a < 65536) :
    (Address.ofValue a).ramBlock = a / 8 * 8 := by
  have h : a % 65536 = a := Nat.mod_eq_of_lt ha
  simp only [Address.ramBlock, Address.ofValue, h]
  rw [and_FFFFFFF8 a (by omega)]
  omega

theorem Address.ofTagSet_value (t s : Nat) (ht : t < 512) (hs : s < 16) :
    (Address.ofTagSet t s).value = t * 128 + s * 8 := by
  simp only [Address.ofTagSet, ADDRESS_OFFSET_BITS, ADDRESS_SET_BITS]
  rw [shl7_or_shl3 t s hs]
  omega

/-- C8: for every 16-bit address `a`, `Address(a)` decodes offset `a mod 8`,
set `(a / 8) mod 16` and tag `a / 128`; `(tag << 7) | (set << 3) | offset`
gives `a` back; `ramBlock()` is `a` with its low three bits cleared and `get()`
is `a`; and when `a` is a multiple of 8,
`Address(Address(a).getTag(), Address(a).getSet()).get()` is `a`. -/
theorem Address.decode_reconstruct (a : Nat) (ha : a < 65536) :
    (Address.ofValue a).getOffset = a % 8 ∧
    (Address.ofValue a).getSet = a / 8 % 16 ∧
    (Address.ofValue a).getTag = a / 128 ∧
    (((Address.ofValue a).getTag <<< 7) ||| ((Address.ofValue a).getSet <<< 3) |||
      (Address.ofValue a).getOffset) = a ∧
    (Address.ofValue a).ramBlock = a - a % 8 ∧
    (Address.ofValue a).get = a ∧
    (a % 8 = 0 →
      (Address.ofTagSet (Address.ofValue a).getTag (Address.ofValue a).getSet).get = a) := by
  simp only [Address.getOffset, Address.getSet, Address.getTag, Address.get,
    Address.ofValue_tag a ha, Address.ofValue_set a, Address.ofValue_offset a,
    Address.ofValue_value a ha, Address.ofValue_ramBlock a ha]
  refine ⟨trivial, trivial, trivial, ?_, by omega, trivial, ?_⟩
  · rw [shl7_or_shl3 _ _ (by omega)]
    have e : a / 128 * 128 + a / 8 % 16 * 8 = (a / 128 * 16 + a / 8 % 16) * 8 := by omega
    rw [e, mul8_or _ _ (by omega)]
    omega
  · intro h8
    rw [Address.ofTagSet_value _ _ (by omega) (by omega)]
    omega

/-- Instance of C8 at the block-base address `0x1238`. -/
theorem Address.decode_reconstruct_witness :
    0x1238 < 65536 ∧ 0x1238 % 8 = 0 ∧
    (Address.ofValue 0x1238).getOffset = 0x1238 % 8 ∧
    (Address.ofValue 0x1238).getSet = 0x1238 / 8 % 16 ∧
    (Address.ofValue 0x1238).getTag = 0x1238 / 128 ∧
    (Address.ofTagSet (Address.ofValue 0x1238).getTag (Address.ofValue 0x1238).getSet).get =
      0x1238 :=
  ⟨by decide, by decide,
   (Address.decode_reconstruct 0x1238 (by decide)).1,
   (Address.decode_reconstruct 0x1238 (by decide)).2.1,
   (Address.decode_reconstruct 0x1238 (by decide)).2.2.1,
   (Address.decode_reconstruct 0x1238 (by decide)).2.2.2.2.2.2 (by decide)⟩

end sacache

/-! ## Evaluations of `sacache` on concrete traces -/

namespace sacache

/-- C1 (transparency of `sacache`), evaluated on two traces. After
`write(0x8000, 1)` the read of `0x8000` misses and returns an all-zero block
although the most recent write to `0x8000` stored 1 (the 9-bit tag 256 is kept
in a `byte`). After `write(0x0088, 5)` the read of `0x0080`, an address never
written, hits and returns 5 at offset 0 (the lines scanned for set 0 and for
set 1 overlap). -/
theorem transparency_fails :
    lastWrite [⟨0x8000, 1, 1⟩] 0x8000 = 1 ∧
    (run State.init [⟨0x8000, 1, 1⟩, ⟨0x8000, 0, 0⟩]).output =
      [⟨0x8000, ' ', [0, 0, 0, 0, 0, 0, 0, 0], 0, 0⟩] ∧
    lastWrite [⟨0x0088, 1, 5⟩] 0x0080 = 0 ∧
    (run State.init [⟨0x0088, 1, 5⟩, ⟨0x0080, 0, 0⟩]).output =
      [⟨0x0080, ' ', [5, 0, 0, 0, 0, 0, 0, 0], 1, 1⟩] := by
  decide

/-- C2 (write-then-read identity), evaluated at `a = 0x8000`, `v = 1` in the
initial state: `write(a, v)` followed at once by `read(a)` returns the byte 0
and prints an all-zero block, reported as a miss. -/
theorem write_then_read_0x8000 :
    (read (write State.init (Address.ofValue 0x8000) 1) (Address.ofValue 0x8000)).2 = 0 ∧
    (read (write State.init (Address.ofValue 0x8000) 1) (Address.ofValue 0x8000)).1.output =
      [⟨0x8000, ' ', [0, 0, 0, 0, 0, 0, 0, 0], 0, 0⟩] := by
  decide

/-- C3 (eviction persistence), evaluated at `a = 0x8000` (tag 256, set 0),
`v = 1` and the five tags 1, 2, 3, 4, 5 of set 0: the final read of `a` is a
miss with `wasDirty = 0`, but its block holds 0 at offset 0, not 1; the dirty
line was written back to `RAM[0]`, the block of its truncated tag 0, and
`RAM[0x8000]` still holds 0. -/
theorem eviction_loses_0x8000 :
    (run State.init [⟨0x8000, 1, 1⟩, ⟨0x0080, 0, 0⟩, ⟨0x0100, 0, 0⟩, ⟨0x0180, 0, 0⟩,
        ⟨0x0200, 0, 0⟩, ⟨0x0280, 0, 0⟩, ⟨0x8000, 0, 0⟩]).output.getLast? =
      some ⟨0x8000, '0', [0, 0, 0, 0, 0, 0, 0, 0], 0, 0⟩ ∧
    (run State.init [⟨0x8000, 1, 1⟩, ⟨0x0080, 0, 0⟩, ⟨0x0100, 0, 0⟩, ⟨0x0180, 0, 0⟩,
        ⟨0x0200, 0, 0⟩, ⟨0x0280, 0, 0⟩, ⟨0x8000, 0, 0⟩]).RAM 0 = 1 ∧
    (run State.init [⟨0x8000, 1, 1⟩, ⟨0x0080, 0, 0⟩, ⟨0x0100, 0, 0⟩, ⟨0x0180, 0, 0⟩,
        ⟨0x0200, 0, 0⟩, ⟨0x0280, 0, 0⟩, ⟨0x8000, 0, 0⟩]).RAM 0x8000 = 0 := by
  decide

/-- C5 (scenario): from the zero-initialised state the trace
`[write(0x0000, 0x11), read(0x0000)]` emits exactly one line, for address 0,
with hit 1, dirty 1 and a block whose byte 0 is `0x11` and bytes 1..7 are 0. -/
theorem scenario_write_read_0000 :
    (run State.init [⟨0x0000, 1, 0x11⟩, ⟨0x0000, 0, 0⟩]).output =
      [⟨0x0000, ' ', [0x11, 0, 0, 0, 0, 0, 0, 0], 1, 1⟩] := by
  decide

/-- C6 (LRU ordering), evaluated in set 0 for the tags A = 256, B = 1, C = 2,
D = 3, E = 4 read in the order A, B, C, D, A, E: all six accesses are misses,
the second access to A included, and afterwards the four lines of the set
store the tags 0, 4, 2, 3. -/
theorem lru_order_tag_256 :
    (run State.init [⟨0x8000, 0, 0⟩, ⟨0x0080, 0, 0⟩, ⟨0x0100, 0, 0⟩, ⟨0x0180, 0, 0⟩,
        ⟨0x8000, 0, 0⟩, ⟨0x0200, 0, 0⟩]).output.map (fun l => l.hit) = [0, 0, 0, 0, 0, 0] ∧
    (List.range 4).map (fun i => ((run State.init [⟨0x8000, 0, 0⟩, ⟨0x0080, 0, 0⟩, ⟨0x0100, 0, 0⟩,
        ⟨0x0180, 0, 0⟩, ⟨0x8000, 0, 0⟩, ⟨0x0200, 0, 0⟩]).CACHE i).tag) = [0, 4, 2, 3] := by
  decide

/-- The loop of `main` runs its body while `eofbit` is clear. -/
theorem Main.loop_step (n : Nat) (m : Main) (h : m.input.eofbit = false) :
    Main.loop (n + 1) m = Main.loop n (Main.body m) := by
  simp [Main.loop, h]

/-- The loop of `main` stops as soon as `eofbit` is set. -/
theorem Main.loop_stop (n : Nat) (m : Main) (h : m.input.eofbit = true) :
    Main.loop n m = m := by
  cases n with
  | zero => rfl
  | succ k => simp [Main.loop, h]

/-- The first iteration of the loop of `main` on the file `0000 00 00` with a
final newline overwrites the three locals, whatever they held. -/
theorem body_first_iteration (a o v : Nat) :
    Main.body (Main.start "0000 00 00\n".toList a o v) =
    Main.body (Main.start "0000 00 00\n".toList 0 0 0) := by
  rfl

/-- C10 (trace processing in `main`), evaluated on the file that holds the one
record `0000 00 00` followed by a newline: whatever the locals hold at the
start and for every bound of at least two iterations, the loop ends at end of
file after two iterations (`count = 2`), having dispatched the read of
address 0 twice and emitted two output lines for one read record. -/
theorem main_trailing_newline (a o v fuel : Nat) :
    (main "0000 00 00\n".toList a o v (fuel + 2)).input.eofbit = true ∧
    (main "0000 00 00\n".toList a o v (fuel + 2)).count = 2 ∧
    (main "0000 00 00\n".toList a o v (fuel + 2)).globals.output =
      [⟨0, ' ', [0, 0, 0, 0, 0, 0, 0, 0], 1, 0⟩, ⟨0, '0', [0, 0, 0, 0, 0, 0, 0, 0], 1, 0⟩] := by
  have e0 : (Main.start "0000 00 00\n".toList a o v).input.eofbit = false := rfl
  have e1 : (Main.body (Main.start "0000 00 00\n".toList 0 0 0)).input.eofbit = false := by
    decide
  have e2 : (Main.body (Main.body (Main.start "0000 00 00\n".toList 0 0 0))).input.eofbit = true := by
    decide
  have h : main "0000 00 00\n".toList a o v (fuel + 2) =
      Main.body (Main.body (Main.start "0000 00 00\n".toList 0 0 0)) := by
    unfold main
    rw [Main.loop_step _ _ e0, body_first_iteration, Main.loop_step _ _ e1, Main.loop_stop _ _ e2]
  rw [h]
  decide

end sacache

/-! ## The scan loop of `getLine` -/

namespace sacache

theorem range_CACHE_WAYS : List.range CACHE_WAYS = [0, 1, 2, 3] := by decide

theorem range_BLOCK_BYTES : List.range BLOCK_BYTES = [0, 1, 2, 3, 4, 5, 6, 7] := by decide

/-- The scan leaves every tag as it was. -/
theorem scan_tag (ad : Address) (c : Nat → CacheLine) (k : Nat) :
    ((scan ad c).CACHE k).tag = (c k).tag := by
  simp only [scan, range_CACHE_WAYS, List.foldl, scanStep, upd]
  split_ifs <;> simp_all

/-- The scan leaves every dirty flag as it was. -/
theorem scan_dirty (ad : Address) (c : Nat → CacheLine) (k : Nat) :
    ((scan ad c).CACHE k).dirty = (c k).dirty := by
  simp only [scan, range_CACHE_WAYS, List.foldl, scanStep, upd]
  split_ifs <;> simp_all

/-- The scan leaves every data block as it was. -/
theorem scan_value (ad : Address) (c : Nat → CacheLine) (k : Nat) :
    ((scan ad c).CACHE k).value = (c k).value := by
  simp only [scan, range_CACHE_WAYS, List.foldl, scanStep, upd]
  split_ifs <;> simp_all

/-- The scan increments the counter of the four lines it visits, once each. -/
theorem scan_counter (ad : Address) (c : Nat → CacheLine) (k : Nat) :
    ((scan ad c).CACHE k).counter =
      if ad.getSet ≤ k ∧ k < ad.getSet + 4 then ((c k).counter + 1) % 4294967296
      else (c k).counter := by
  simp only [scan, range_CACHE_WAYS, List.foldl, scanStep, upd]
  split_ifs <;> first | rfl | omega | simp_all

/-- The pointer `p_line` after the scan: the last of the four lines whose tag
equals the tag of the address, `NULL` when there is none. -/
theorem scan_p_line (ad : Address) (c : Nat → CacheLine) :
    (scan ad c).p_line =
      if (c (ad.getSet + 3)).tag = ad.getTag then some (ad.getSet + 3)
      else if (c (ad.getSet + 2)).tag = ad.getTag then some (ad.getSet + 2)
      else if (c (ad.getSet + 1)).tag = ad.getTag then some (ad.getSet + 1)
      else if (c ad.getSet).tag = ad.getTag then some ad.getSet
      else none := by
  simp only [scan, range_CACHE_WAYS, List.foldl, scanStep, upd]
  simp

/-- An iteration of the scan either moves `p_lru` to the line it visits or
leaves it. -/
theorem scanStep_p_lru (ad : Address) (p : Nat) (sc : Scan) (i : Nat) :
    (scanStep ad p sc i).p_lru = p + i ∨ (scanStep ad p sc i).p_lru = sc.p_lru := by
  simp only [scanStep]
  split_ifs
  · exact Or.inl rfl
  · exact Or.inr rfl

/-- The pointer `p_lru` after the scan is one of the four lines of the set. -/
theorem scan_p_lru_mem (ad : Address) (c : Nat → CacheLine) :
    ∃ i, i < CACHE_WAYS ∧ (scan ad c).p_lru = ad.getSet + i := by
  simp only [scan, range_CACHE_WAYS, List.foldl, CACHE_WAYS]
  generalize h0 : (⟨c, none, ad.getSet⟩ : Scan) = s0
  have e0 : s0.p_lru = ad.getSet := by rw [← h0]
  have h1 := scanStep_p_lru ad ad.getSet s0 0
  have h2 := scanStep_p_lru ad ad.getSet (scanStep ad ad.getSet s0 0) 1
  have h3 := scanStep_p_lru ad ad.getSet (scanStep ad ad.getSet (scanStep ad ad.getSet s0 0) 1) 2
  have h4 := scanStep_p_lru ad ad.getSet
    (scanStep ad ad.getSet (scanStep ad ad.getSet (scanStep ad ad.getSet s0 0) 1) 2) 3
  generalize (scanStep ad ad.getSet
    (scanStep ad ad.getSet (scanStep ad ad.getSet (scanStep ad ad.getSet s0 0) 1) 2) 3).p_lru = x4
    at h4 ⊢
  exact ⟨x4 - ad.getSet, by omega, by omega⟩

/-- The pointer `p_line` after the scan, when set, is one of the four lines of
the set and its tag equals the tag of the address. -/
theorem scan_p_line_some (ad : Address) (c : Nat → CacheLine) (p : Nat)
    (h : (scan ad c).p_line = some p) :
    (∃ i, i < CACHE_WAYS ∧ p = ad.getSet + i) ∧ (c p).tag = ad.getTag := by
  rw [scan_p_line] at h
  simp only [CACHE_WAYS]
  split_ifs at h with h3 h2 h1 h0
  · cases h; exact ⟨⟨3, by omega, rfl⟩, h3⟩
  · cases h; exact ⟨⟨2, by omega, rfl⟩, h2⟩
  · cases h; exact ⟨⟨1, by omega, rfl⟩, h1⟩
  · cases h; exact ⟨⟨0, by omega, rfl⟩, h0⟩

/-- The pointer `p_line` stays `NULL` exactly when none of the four lines of
the set stores the tag of the address. -/
theorem scan_p_line_isSome (ad : Address) (c : Nat → CacheLine) :
    (scan ad c).p_line.isSome = true ↔
      ∃ i, i < CACHE_WAYS ∧ (c (ad.getSet + i)).tag = ad.getTag := by
  rw [scan_p_line]
  simp only [CACHE_WAYS]
  constructor
  · intro h
    split_ifs at h with h3 h2 h1 h0
    · exact ⟨3, by omega, h3⟩
    · exact ⟨2, by omega, h2⟩
    · exact ⟨1, by omega, h1⟩
    · exact ⟨0, by omega, h0⟩
    · simp at h
  · rintro ⟨i, hi, ht⟩
    have hcases : i = 0 ∨ i = 1 ∨ i = 2 ∨ i = 3 := by omega
    rcases hcases with rfl | rfl | rfl | rfl <;> split_ifs <;> simp_all

/-! ## Flags reported by `getLine` -/

theorem getLine_cacheHit (s : State) (ad : Address) (isRead : Bool) :
    (getLine s ad isRead).cacheHit = if (scan ad s.CACHE).p_line.isSome then 1 else 0 :=
  rfl

theorem getLine_p_line_hit (s : State) (ad : Address) (isRead : Bool) (p : Nat)
    (h : (scan ad s.CACHE).p_line = some p) : (getLine s ad isRead).p_line = p := by
  simp only [getLine, h]

theorem getLine_p_line_miss (s : State) (ad : Address) (isRead : Bool)
    (h : (scan ad s.CACHE).p_line = none) :
    (getLine s ad isRead).p_line = (scan ad s.CACHE).p_lru := by
  simp only [getLine, h]

theorem getLine_wasDirty (s : State) (ad : Address) (isRead : Bool) :
    (getLine s ad isRead).wasDirty =
      if (s.CACHE (getLine s ad isRead).p_line).dirty then 1 else 0 := by
  simp only [getLine, scan_dirty]

theorem getLine_output_read (s : State) (ad : Address) :
    (getLine s ad true).state.output = s.output ++
      [⟨ad.get, s.fill,
        (List.range BLOCK_BYTES).map ((getLine s ad true).state.CACHE (getLine s ad true).p_line).value,
        (getLine s ad true).cacheHit, (getLine s ad true).wasDirty⟩] := by
  simp only [getLine, if_true]

theorem getLine_output_write (s : State) (ad : Address) :
    (getLine s ad false).state.output = s.output := by
  simp [getLine]

/-- Closed form of the refill loop. -/
theorem refill_apply (RAM : Nat → Nat) (base : Nat) (value : Nat → Nat) (i : Nat) :
    refill RAM base value i = if i < 8 then RAM (base + i) else value i := by
  simp only [refill, range_BLOCK_BYTES, List.foldl, upd]
  split_ifs <;> first | omega | (subst_vars; rfl)

/-- Closed form of the write-back loop. -/
theorem writeBack_apply (RAM : Nat → Nat) (base : Nat) (value : Nat → Nat) (k : Nat) :
    writeBack RAM base value k =
      if base ≤ k ∧ k < base + 8 then value (k - base) else RAM k := by
  simp only [writeBack, range_BLOCK_BYTES, List.foldl, upd]
  split_ifs <;> first | omega | (subst_vars; simp)

/-- Every store of `getLine` into `CACHE` after the scan goes to `p_line`. -/
theorem getLine_CACHE_other (s : State) (ad : Address) (isRead : Bool) (k : Nat)
    (hk : k ≠ (getLine s ad isRead).p_line) :
    (getLine s ad isRead).state.CACHE k = (scan ad s.CACHE).CACHE k := by
  simp only [getLine] at hk ⊢
  split_ifs <;> simp [upd, hk]

/-- Tag of the active line after `getLine`: unchanged on a hit, the tag of the
address converted to `byte` on a miss. -/
theorem getLine_tag_p_line (s : State) (ad : Address) (isRead : Bool) :
    ((getLine s ad isRead).state.CACHE (getLine s ad isRead).p_line).tag =
      if (getLine s ad isRead).cacheHit = 0 then ad.getTag % 256
      else (s.CACHE (getLine s ad isRead).p_line).tag := by
  simp only [getLine]
  split_ifs <;> simp [upd, scan_tag]

/-- Data block of the active line after `getLine`: unchanged on a hit,
refilled from `RAM` (as it is after the write-back) on a miss. -/
theorem getLine_value_p_line (s : State) (ad : Address) (isRead : Bool) :
    ((getLine s ad isRead).state.CACHE (getLine s ad isRead).p_line).value =
      if (getLine s ad isRead).cacheHit = 0 then
        refill (getLine s ad isRead).state.RAM ad.ramBlock
          (s.CACHE (getLine s ad isRead).p_line).value
      else (s.CACHE (getLine s ad isRead).p_line).value := by
  simp only [getLine]
  split_ifs <;> simp [upd, scan_value]

/-- `RAM` after `getLine`: the block of the replaced line is written back on a
miss that replaces a dirty line, nothing is stored otherwise. -/
theorem getLine_RAM (s : State) (ad : Address) (isRead : Bool) :
    (getLine s ad isRead).state.RAM =
      if (getLine s ad isRead).cacheHit = 0 ∧ (getLine s ad isRead).wasDirty ≠ 0 then
        writeBack s.RAM
          (Address.ofTagSet (s.CACHE (getLine s ad isRead).p_line).tag ad.getSet).get
          (s.CACHE (getLine s ad isRead).p_line).value
      else s.RAM := by
  simp only [getLine]
  split_ifs <;> simp_all [upd, scan_value, scan_tag]

/-- C7: for every state and every address, the hit flag of `getLine` is 1 if
and only if, before the access, one of the four lines scanned for the address
stores a tag equal to the decoded tag of the address (it is 0 otherwise); the
active line `p_line` is one of these four lines: a line with the matching tag
on a hit, the line that receives the tag of the address on a miss, while every
other line keeps its tag, data and dirty flag; the dirty flag is the dirty
flag that the active line had before the access; and these two flags are the
ones printed for a read. -/
theorem getLine_hit_dirty (s : State) (a : Nat) (isRead : Bool) :
    ((getLine s (Address.ofValue a) isRead).cacheHit = 1 ↔
      ∃ i, i < CACHE_WAYS ∧
        (s.CACHE ((Address.ofValue a).getSet + i)).tag = (Address.ofValue a).getTag) ∧
    ((getLine s (Address.ofValue a) isRead).cacheHit ≠ 1 →
      (getLine s (Address.ofValue a) isRead).cacheHit = 0) ∧
    (∃ i, i < CACHE_WAYS ∧
      (getLine s (Address.ofValue a) isRead).p_line = (Address.ofValue a).getSet + i) ∧
    ((getLine s (Address.ofValue a) isRead).cacheHit = 1 →
      (s.CACHE (getLine s (Address.ofValue a) isRead).p_line).tag = (Address.ofValue a).getTag) ∧
    ((getLine s (Address.ofValue a) isRead).cacheHit = 0 →
      ((getLine s (Address.ofValue a) isRead).state.CACHE
        (getLine s (Address.ofValue a) isRead).p_line).tag = (Address.ofValue a).getTag % 256) ∧
    (∀ k, k ≠ (getLine s (Address.ofValue a) isRead).p_line →
      ((getLine s (Address.ofValue a) isRead).state.CACHE k).tag = (s.CACHE k).tag ∧
      ((getLine s (Address.ofValue a) isRead).state.CACHE k).value = (s.CACHE k).value ∧
      ((getLine s (Address.ofValue a) isRead).state.CACHE k).dirty = (s.CACHE k).dirty) ∧
    (getLine s (Address.ofValue a) isRead).wasDirty =
      (if (s.CACHE (getLine s (Address.ofValue a) isRead).p_line).dirty then 1 else 0) ∧
    (∃ data, (getLine s (Address.ofValue a) true).state.output = s.output ++
      [⟨(Address.ofValue a).get, s.fill, data,
        (getLine s (Address.ofValue a) isRead).cacheHit,
        (getLine s (Address.ofValue a) isRead).wasDirty⟩]) := by
  generalize Address.ofValue a = ad
  refine ⟨?_, ?_, ?_, ?_, ?_, ?_, getLine_wasDirty s ad isRead, ?_⟩
  · rw [getLine_cacheHit, ← scan_p_line_isSome]
    split_ifs with h <;> simp [h]
  · rw [getLine_cacheHit]
    split_ifs with h <;> simp
  · cases h : (scan ad s.CACHE).p_line with
    | none =>
      rw [getLine_p_line_miss s ad isRead h]
      exact scan_p_lru_mem ad s.CACHE
    | some p =>
      rw [getLine_p_line_hit s ad isRead p h]
      exact (scan_p_line_some ad s.CACHE p h).1
  · intro hhit
    cases h : (scan ad s.CACHE).p_line with
    | none => simp [getLine_cacheHit, h] at hhit
    | some p =>
      rw [getLine_p_line_hit s ad isRead p h]
      exact (scan_p_line_some ad s.CACHE p h).2
  · intro hmiss
    rw [getLine_tag_p_line, if_pos hmiss]
  · intro k hk
    rw [getLine_CACHE_other s ad isRead k hk, scan_tag, scan_value, scan_dirty]
    exact ⟨rfl, rfl, rfl⟩
  · refine ⟨(List.range BLOCK_BYTES).map
      ((getLine s ad true).state.CACHE (getLine s ad true).p_line).value, ?_⟩
    rw [getLine_output_read]
    rfl

/-- Instance of C7 after `write(0x0080, 1)` on the initial state: a read of
`0x0080` is a hit on a dirty line. -/
theorem getLine_hit_dirty_witness :
    (getLine (write State.init (Address.ofValue 0x0080) 1) (Address.ofValue 0x0080) true).cacheHit = 1 ∧
    ((write State.init (Address.ofValue 0x0080) 1).CACHE
      (getLine (write State.init (Address.ofValue 0x0080) 1) (Address.ofValue 0x0080)
        true).p_line).tag = (Address.ofValue 0x0080).getTag :=
  ⟨by decide,
   (getLine_hit_dirty (write State.init (Address.ofValue 0x0080) 1) 0x0080 true).2.2.2.1 (by decide)⟩

/-! ## Cold accesses and the origin of hits -/

/-- A trace extended by one record runs the record last. -/
theorem run_append_singleton (s : State) (pre : List Rec) (r : Rec) :
    run s (pre ++ [r]) = dispatch (run s pre) r := by
  simp [run, List.foldl_append]

/-- After `getLine` a line stores the tag it stored before or the tag of the
address converted to `byte`. -/
theorem getLine_tag_cases (s : State) (ad : Address) (isRead : Bool) (k : Nat) :
    ((getLine s ad isRead).state.CACHE k).tag = (s.CACHE k).tag ∨
    ((getLine s ad isRead).state.CACHE k).tag = ad.getTag % 256 := by
  by_cases hk : k = (getLine s ad isRead).p_line
  · rw [hk, getLine_tag_p_line]
    split_ifs
    · exact Or.inr rfl
    · exact Or.inl rfl
  · rw [getLine_CACHE_other s ad isRead k hk, scan_tag]
    exact Or.inl rfl

/-- After one dispatched record a line stores the tag it stored before or the
tag of the record's address converted to `byte`. -/
theorem dispatch_tag_cases (s : State) (r : Rec) (k : Nat) :
    ((dispatch s r).CACHE k).tag = (s.CACHE k).tag ∨
    ((dispatch s r).CACHE k).tag = (Address.ofValue r.addr).getTag % 256 := by
  simp only [dispatch]
  split_ifs
  · simp only [write, upd]
    split_ifs
    · exact Or.inr rfl
    · exact getLine_tag_cases s _ false k
  · exact getLine_tag_cases s _ true k

/-- Every tag stored in the cache after a trace is 0 or the tag, converted to
`byte`, of an address the trace referenced. -/
theorem run_tag_origin (pre : List Rec) (k : Nat) :
    ((run State.init pre).CACHE k).tag = 0 ∨
    ∃ q, q ∈ pre ∧ (Address.ofValue q.addr).getTag % 256 = ((run State.init pre).CACHE k).tag := by
  induction pre using List.reverseRecOn generalizing k with
  | nil => exact Or.inl rfl
  | append_singleton l r ih =>
    rw [run_append_singleton]
    rcases dispatch_tag_cases (run State.init l) r k with h | h
    · rw [h]
      rcases ih k with h0 | ⟨q, hq, hqt⟩
      · exact Or.inl h0
      · exact Or.inr ⟨q, List.mem_append_left _ hq, hqt⟩
    · exact Or.inr ⟨r, by simp, h.symm⟩

/-- C4, as stated, fails: on the zero-initialised cache and store the trace
that consists of the single read of `0x0008` reports a hit. -/
theorem cold_read_0008_hits :
    (run State.init [⟨0x0008, 0, 0⟩]).output =
      [⟨0x0008, ' ', [0, 0, 0, 0, 0, 0, 0, 0], 1, 0⟩] := by
  decide

/-- C4, amended: on the zero-initialised cache and store the read of a 16-bit
address `a` emits one line with dirty flag 0 and an all-zero block, reported
as a miss exactly when the tag of `a` is not 0, that is when `128 ≤ a` (every
line starts with tag 0, so an address of tag 0 hits). After any trace `pre`
whose accesses all go to addresses of one set below `0x8000`, an access to an
address `b` of that set below `0x8000` reports a hit only if the tag of `b` is
0 or `pre` referenced the 8-byte block of `b`. -/
theorem cold_read_and_hit_origin (a : Nat) (ha : a < 65536) (set : Nat) (pre : List Rec)
    (hpre : ∀ r, r ∈ pre → r.addr < 32768 ∧ (Address.ofValue r.addr).getSet = set)
    (b : Nat) (hb : b < 32768) (hbset : (Address.ofValue b).getSet = set) (isRead : Bool)
    (hhit : (getLine (run State.init pre) (Address.ofValue b) isRead).cacheHit = 1) :
    (read State.init (Address.ofValue a)).1.output =
      [⟨a, ' ', [0, 0, 0, 0, 0, 0, 0, 0], if 128 ≤ a then 0 else 1, 0⟩] ∧
    ((Address.ofValue b).getTag = 0 ∨ ∃ q, q ∈ pre ∧ q.addr / 8 = b / 8) := by
  constructor
  · have hd : ∀ k, (State.init.CACHE k).dirty = false := fun _ => rfl
    have hv : ∀ k, (State.init.CACHE k).value = fun _ => 0 := fun _ => rfl
    have ht : ∀ k, (State.init.CACHE k).tag = 0 := fun _ => rfl
    have hwd : (getLine State.init (Address.ofValue a) true).wasDirty = 0 := by
      rw [getLine_wasDirty, hd]
      rfl
    have hhit0 : (getLine State.init (Address.ofValue a) true).cacheHit =
        if 128 ≤ a then 0 else 1 := by
      rw [getLine_cacheHit, scan_p_line]
      simp only [ht, Address.getTag, Address.ofValue_tag a ha]
      by_cases h128 : 128 ≤ a
      · have : ¬ (0 = a / 128) := by omega
        simp [this, h128]
      · have : 0 = a / 128 := by omega
        simp [← this, h128]
    have hram : (getLine State.init (Address.ofValue a) true).state.RAM = fun _ => 0 := by
      rw [getLine_RAM, hwd]
      simp [State.init]
    simp only [read]
    rw [getLine_output_read, getLine_value_p_line, hram, hv, hwd, hhit0]
    simp only [Address.get, Address.ofValue_value a ha, range_BLOCK_BYTES]
    split_ifs <;> simp [State.init, refill_apply]
  · rw [getLine_cacheHit] at hhit
    have hs : (scan (Address.ofValue b) (run State.init pre).CACHE).p_line.isSome = true := by
      by_contra hn
      simp [hn] at hhit
    obtain ⟨i, _, hi⟩ := (scan_p_line_isSome _ _).1 hs
    rcases run_tag_origin pre ((Address.ofValue b).getSet + i) with h0 | ⟨q, hq, hqt⟩
    · left
      rw [← hi]
      exact h0
    · right
      refine ⟨q, hq, ?_⟩
      have hq2 := hpre q hq
      rw [hi] at hqt
      rw [← hbset] at hq2
      have hqs := hq2.2
      simp only [Address.getTag, Address.getSet, Address.ofValue_tag q.addr (by omega),
        Address.ofValue_tag b (by omega), Address.ofValue_set] at hqt hqs
      omega

/-- Instance of the amended C4: the cold read of `0x0080` (tag 1) is a miss,
and the hit of `read(0x0084)` after `write(0x0080, 1)` has an earlier access
of the same 8-byte block. -/
theorem cold_read_and_hit_origin_witness :
    0x0080 < 65536 ∧
    (∀ r, r ∈ [(⟨0x0080, 1, 1⟩ : Rec)] →
      r.addr < 32768 ∧ (Address.ofValue r.addr).getSet = 0) ∧
    0x0084 < 32768 ∧ (Address.ofValue 0x0084).getSet = 0 ∧
    (getLine (run State.init [⟨0x0080, 1, 1⟩]) (Address.ofValue 0x0084) true).cacheHit = 1 ∧
    (read State.init (Address.ofValue 0x0080)).1.output =
      [⟨0x0080, ' ', [0, 0, 0, 0, 0, 0, 0, 0], if 128 ≤ 0x0080 then 0 else 1, 0⟩] ∧
    ((Address.ofValue 0x0084).getTag = 0 ∨
      ∃ q, q ∈ [(⟨0x0080, 1, 1⟩ : Rec)] ∧ q.addr / 8 = 0x0084 / 8) :=
  ⟨by decide, by decide, by decide, by decide, by decide,
   cold_read_and_hit_origin 0x0080 (by decide) 0 [⟨0x0080, 1, 1⟩] (by decide) 0x0084
     (by decide) (by decide) true (by decide)⟩

end sacache

/-! ## Write followed by read, for tags that fit a byte -/

namespace sacache

/-- The scan finds the line `set + j` when it stores the tag and no later line
of the set does. -/
theorem scan_p_line_last (ad : Address) (c : Nat → CacheLine) (j : Nat) (hj : j < 4)
    (hm : (c (ad.getSet + j)).tag = ad.getTag)
    (hl : ∀ i, j < i → i < 4 → (c (ad.getSet + i)).tag ≠ ad.getTag) :
    (scan ad c).p_line = some (ad.getSet + j) := by
  rw [scan_p_line]
  have hcases : j = 0 ∨ j = 1 ∨ j = 2 ∨ j = 3 := by omega
  rcases hcases with rfl | rfl | rfl | rfl
  · rw [Nat.add_zero] at hm
    rw [if_neg (hl 3 (by omega) (by omega)), if_neg (hl 2 (by omega) (by omega)),
      if_neg (hl 1 (by omega) (by omega)), if_pos hm]
    rfl
  · rw [if_neg (hl 3 (by omega) (by omega)), if_neg (hl 2 (by omega) (by omega)), if_pos hm]
  · rw [if_neg (hl 3 (by omega) (by omega)), if_pos hm]
  · rw [if_pos hm]

/-- When the scan finds the line `set + j`, no later line of the set stores
the tag. -/
theorem scan_p_line_later (ad : Address) (c : Nat → CacheLine) (j : Nat)
    (h : (scan ad c).p_line = some (ad.getSet + j)) (i : Nat) (hji : j < i) (hi : i < 4) :
    (c (ad.getSet + i)).tag ≠ ad.getTag := by
  rw [scan_p_line] at h
  intro hit
  have hcases : i = 1 ∨ i = 2 ∨ i = 3 := by omega
  split_ifs at h with h3 h2 h1 h0 <;> simp only [Option.some.injEq] at h <;>
    first
    | (exfalso; omega)
    | (rcases hcases with rfl | rfl | rfl <;> (exfalso; omega))

/-- When the scan finds no line, no line of the set stores the tag. -/
theorem scan_p_line_none (ad : Address) (c : Nat → CacheLine)
    (h : (scan ad c).p_line = none) (i : Nat) (hi : i < 4) :
    (c (ad.getSet + i)).tag ≠ ad.getTag := by
  intro hit
  have hs := (scan_p_line_isSome ad c).2 ⟨i, hi, hit⟩
  rw [h] at hs
  exact Bool.noConfusion hs

/-- `CACHE` after `write`: the active line holds the tag of the address
converted to `byte`, the written byte at the offset and a set dirty flag;
every other line is as `getLine` left it. -/
theorem write_CACHE (s : State) (ad : Address) (v : Nat) (k : Nat) :
    (write s ad v).CACHE k =
      if k = (getLine s ad false).p_line then
        { value := upd ((getLine s ad false).state.CACHE (getLine s ad false).p_line).value
            ad.getOffset (v % 256)
          dirty := true
          counter := ((getLine s ad false).state.CACHE (getLine s ad false).p_line).counter
          tag := ad.getTag % 256 }
      else (getLine s ad false).state.CACHE k := by
  simp only [write, upd]
  split_ifs <;> rfl

/-- Write followed at once by read, in every state: when the tag of the
address fits a byte (addresses below `0x8000`), `read` after `write(a, v)`
hits and returns `v`, also in the printed block. -/
theorem write_then_read_small_tag (s : State) (a v : Nat) (ha : a < 32768) :
    (read (write s (Address.ofValue a) v) (Address.ofValue a)).2 = v % 256 ∧
    (getLine (write s (Address.ofValue a) v) (Address.ofValue a) true).cacheHit = 1 ∧
    ∃ fill data,
      (read (write s (Address.ofValue a) v) (Address.ofValue a)).1.output =
        s.output ++ [⟨a, fill, data, 1, 1⟩] ∧ data[a % 8]? = some (v % 256) := by
  have htag : (Address.ofValue a).getTag % 256 = (Address.ofValue a).getTag := by
    simp only [Address.getTag, Address.ofValue_tag a (by omega)]
    omega
  have hoff : (Address.ofValue a).getOffset = a % 8 := Address.ofValue_offset a
  have hget : (Address.ofValue a).get = a := Address.ofValue_value a (by omega)
  generalize Address.ofValue a = ad at htag hoff hget ⊢
  have hW := write_CACHE s ad v
  have hWout : (write s ad v).output = s.output := getLine_output_write s ad
  -- the line written is one of the four lines of the set
  have hp : ∃ j, j < 4 ∧ (getLine s ad false).p_line = ad.getSet + j ∧
      ∀ i, j < i → i < 4 → (s.CACHE (ad.getSet + i)).tag ≠ ad.getTag := by
    cases h : (scan ad s.CACHE).p_line with
    | none =>
      obtain ⟨j, hj, hjp⟩ := scan_p_lru_mem ad s.CACHE
      refine ⟨j, hj, ?_, fun i _ hi => scan_p_line_none ad s.CACHE h i hi⟩
      rw [getLine_p_line_miss s ad false h, hjp]
    | some p =>
      obtain ⟨⟨j, hj, hjp⟩, _⟩ := scan_p_line_some ad s.CACHE p h
      subst hjp
      refine ⟨j, hj, getLine_p_line_hit s ad false _ h, ?_⟩
      exact fun i hji hi => scan_p_line_later ad s.CACHE j h i hji hi
  obtain ⟨j, hj, hjp, hlater⟩ := hp
  generalize hs1 : write s ad v = s1 at hW hWout ⊢
  have hscan : (scan ad s1.CACHE).p_line = some (ad.getSet + j) := by
    apply scan_p_line_last ad s1.CACHE j hj
    · rw [hW, hjp, if_pos rfl]
      exact htag
    · intro i hji hi
      have hne : ad.getSet + i ≠ (getLine s ad false).p_line := by
        rw [hjp]
        omega
      rw [hW, if_neg hne, getLine_CACHE_other s ad false _ hne, scan_tag]
      exact hlater i hji hi
  have hhit : (getLine s1 ad true).cacheHit = 1 := by
    rw [getLine_cacheHit, hscan]
    rfl
  have hpl : (getLine s1 ad true).p_line = ad.getSet + j := getLine_p_line_hit s1 ad true _ hscan
  have hval : ((getLine s1 ad true).state.CACHE (getLine s1 ad true).p_line).value =
      upd ((getLine s ad false).state.CACHE (getLine s ad false).p_line).value
        ad.getOffset (v % 256) := by
    rw [getLine_value_p_line, hhit, if_neg (by decide), hpl, hW, hjp, if_pos rfl]
  have hdirty : (getLine s1 ad true).wasDirty = 1 := by
    rw [getLine_wasDirty, hpl, hW, hjp, if_pos rfl]
    rfl
  refine ⟨?_, hhit, s1.fill, (List.range BLOCK_BYTES).map
      ((getLine s1 ad true).state.CACHE (getLine s1 ad true).p_line).value, ?_, ?_⟩
  · simp only [read]
    rw [hval]
    simp [upd]
  · simp only [read]
    rw [getLine_output_read, hWout, hhit, hdirty, hget]
  · rw [hval, hoff, range_BLOCK_BYTES]
    have h8 : a % 8 < 8 := by omega
    have hcases : a % 8 = 0 ∨ a % 8 = 1 ∨ a % 8 = 2 ∨ a % 8 = 3 ∨ a % 8 = 4 ∨ a % 8 = 5 ∨
        a % 8 = 6 ∨ a % 8 = 7 := by omega
    rcases hcases with h | h | h | h | h | h | h | h <;> simp [h, upd]

end sacache

/-! ## The direct-mapped cache `dmcache` -/

namespace dmcache

theorem range_BLOCK_SIZE : List.range BLOCK_SIZE = [0, 1, 2, 3, 4, 5, 6, 7] := by decide

theorem parseAddr_eq (a : Nat) :
    parseAddr a = { tag := a / 512, line := a / 8 % 64, offset := a % 8 } := by
  simp [parseAddr, Nat.shiftRight_eq_div_pow, and_7_eq_mod, and_63_eq_mod]

/-- Closed form of the write-back loop of `writebackAndLoadIfNecessary`. -/
theorem store_block_apply (RAM : Nat → Nat) (start : Nat) (v : Nat → Nat) (k : Nat) :
    (List.range BLOCK_SIZE).foldl (fun ram i => upd ram (start + i) (v i)) RAM k =
      if start ≤ k ∧ k < start + 8 then v (k - start) else RAM k := by
  simp only [range_BLOCK_SIZE, List.foldl, upd]
  split_ifs <;> first | omega | (subst_vars; simp)

/-- Closed form of the load loop of `writebackAndLoadIfNecessary`. -/
theorem load_block_apply (RAM : Nat → Nat) (start : Nat) (value : Nat → Nat) (i : Nat) :
    (List.range BLOCK_SIZE).reverse.foldl (fun val i => upd val i (RAM (start + i))) value i =
      if i < 8 then RAM (start + i) else value i := by
  simp only [range_BLOCK_SIZE, List.reverse_cons, List.reverse_nil, List.nil_append,
    List.cons_append, List.foldl, upd]
  split_ifs <;> first | omega | (subst_vars; rfl)

/-- On a hit `writebackAndLoadIfNecessary` changes nothing and returns 1. -/
theorem wbl_hit (s : State) (h : (s.CACHE s.parsedAddr.line).tag = s.parsedAddr.tag) :
    writebackAndLoadIfNecessary s = (s, 1) := by
  simp [writebackAndLoadIfNecessary, h]

/-- The function `writebackAndLoadIfNecessary` only stores into `CACHE` and `RAM`. -/
theorem wbl_frame (s : State) :
    (writebackAndLoadIfNecessary s).1.parsedAddr = s.parsedAddr ∧
    (writebackAndLoadIfNecessary s).1.curAddr = s.curAddr ∧
    (writebackAndLoadIfNecessary s).1.curVal = s.curVal ∧
    (writebackAndLoadIfNecessary s).1.curOp = s.curOp ∧
    (writebackAndLoadIfNecessary s).1.outfile = s.outfile := by
  simp only [writebackAndLoadIfNecessary]
  split_ifs <;> simp

/-- `RAM` after a miss: the block of the replaced line is written back when
that line is dirty. -/
theorem wbl_miss_RAM (s : State) (h : (s.CACHE s.parsedAddr.line).tag ≠ s.parsedAddr.tag)
    (hl : s.parsedAddr.line < 64) (ht : (s.CACHE s.parsedAddr.line).tag < 128) (k : Nat) :
    (writebackAndLoadIfNecessary s).1.RAM k =
      if (s.CACHE s.parsedAddr.line).dirty ≠ 0 ∧
          (s.CACHE s.parsedAddr.line).tag * 512 + s.parsedAddr.line * 8 ≤ k ∧
          k < (s.CACHE s.parsedAddr.line).tag * 512 + s.parsedAddr.line * 8 + 8 then
        (s.CACHE s.parsedAddr.line).value
          (k - ((s.CACHE s.parsedAddr.line).tag * 512 + s.parsedAddr.line * 8))
      else s.RAM k := by
  have e1 : ((s.CACHE s.parsedAddr.line).tag <<< 9) % 18446744073709551616 =
      (s.CACHE s.parsedAddr.line).tag <<< 9 := by
    rw [Nat.shiftLeft_eq]
    omega
  have e2 : (s.parsedAddr.line <<< 3) % 18446744073709551616 = s.parsedAddr.line <<< 3 := by
    rw [Nat.shiftLeft_eq]
    omega
  simp only [writebackAndLoadIfNecessary, if_pos h, e1, e2, shl9_or_shl3 _ _ hl]
  split_ifs with hd hk hk
  · simp only [store_block_apply, if_pos hk.2]
  · simp only [store_block_apply]
    rw [if_neg]
    intro hk2
    exact hk ⟨hd, hk2⟩
  · exact absurd hk.1 hd
  · rfl

/-- `CACHE` after a miss: the line of the address holds the tag of the
address, the block loaded from `RAM` (as it is after the write-back) and a
clear dirty flag; the other lines are as before. -/
theorem wbl_miss_CACHE (s : State) (h : (s.CACHE s.parsedAddr.line).tag ≠ s.parsedAddr.tag)
    (ha : s.curAddr < 65536) (k : Nat) :
    (writebackAndLoadIfNecessary s).1.CACHE k =
      if k = s.parsedAddr.line then
        { tag := s.parsedAddr.tag
          value := fun i => if i < 8 then
              (writebackAndLoadIfNecessary s).1.RAM (s.curAddr / 8 * 8 + i)
            else (s.CACHE s.parsedAddr.line).value i
          dirty := 0 }
      else s.CACHE k := by
  have e := and_FFFFFFFFFFFFFFF8 s.curAddr (by omega)
  simp only [writebackAndLoadIfNecessary, if_pos h]
  split_ifs with hd hk hk
  · subst hk
    simp only [upd, if_true, e]
    congr 1
    funext i
    rw [load_block_apply]
  · simp [upd, hk]
  · subst hk
    simp only [upd, if_true, e]
    have hd0 : (s.CACHE s.parsedAddr.line).dirty = 0 := by
      by_contra hne
      exact hd hne
    congr 1
    funext i
    rw [load_block_apply]
  · simp [upd, hk]

/-- The function `writebackAndLoadIfNecessary` keeps the invariant and leaves
the line of the address with the tag of the address. -/
theorem wbl_inv (s : State) (mem : Nat → Nat) (a : Nat) (ha : a < 65536)
    (hc : s.curAddr = a) (hp : s.parsedAddr = parseAddr a) (hI : Inv s mem) :
    Inv (writebackAndLoadIfNecessary s).1 mem ∧
    ((writebackAndLoadIfNecessary s).1.CACHE (a / 8 % 64)).tag = a / 512 := by
  have hline : s.parsedAddr.line = a / 8 % 64 := by rw [hp, parseAddr_eq]
  have htag : s.parsedAddr.tag = a / 512 := by rw [hp, parseAddr_eq]
  by_cases h : (s.CACHE s.parsedAddr.line).tag = s.parsedAddr.tag
  · rw [wbl_hit s h]
    refine ⟨hI, ?_⟩
    rw [← hline, ← htag]
    exact h
  · have hl : s.parsedAddr.line < 64 := by rw [hline]; omega
    have hto := hI.tag_lt _ hl
    have hR := wbl_miss_RAM s h hl hto
    have hC := wbl_miss_CACHE s h (by rw [hc]; exact ha)
    have hcl := hI.clean _ hl
    simp only [hline, htag, hc] at hR hC h hto hcl
    generalize (writebackAndLoadIfNecessary s).1 = s1 at hR hC ⊢
    generalize hold : s.CACHE (a / 8 % 64) = old at hR hC h hto hcl
    have hno : ∀ k, ¬ (old.tag * 512 + a / 8 % 64 * 8 ≤ k ∧ k < old.tag * 512 + a / 8 % 64 * 8 + 8) →
        s1.RAM k = s.RAM k := by
      intro k hk
      rw [hR k, if_neg]
      intro hk2
      exact hk hk2.2
    have hin : ∀ i, i < 8 → s1.RAM (old.tag * 512 + a / 8 % 64 * 8 + i) = old.value i := by
      intro i hi
      rw [hR]
      by_cases hd : old.dirty = 0
      · rw [if_neg (by simp [hd])]
        exact hcl hd i hi
      · rw [if_pos ⟨hd, by omega, by omega⟩]
        congr 1
        omega
    refine ⟨⟨?_, ?_, ?_⟩, ?_⟩
    · intro l hl2
      rw [hC l]
      split_ifs with hll
      · show a / 512 < 128
        omega
      · exact hI.tag_lt l hl2
    · intro l hl2 hd i hi
      rw [hC l] at hd ⊢
      by_cases hll : l = a / 8 % 64
      · simp only [if_pos hll, if_pos hi]
        congr 1
        omega
      · simp only [if_neg hll] at hd ⊢
        have hlt := hI.tag_lt l hl2
        rw [hno _ (by omega)]
        exact hI.clean l hl2 hd i hi
    · intro x hx
      have hv := hI.view x hx
      simp only [State.view] at hv ⊢
      rw [hC]
      by_cases hll : x / 8 % 64 = a / 8 % 64
      · simp only [if_pos hll]
        rw [hll, hold] at hv
        by_cases hxt : a / 512 = x / 512
        · have hx8 : x % 8 < 8 := by omega
          have hxa : a / 8 * 8 + x % 8 = x := by omega
          rw [if_pos hxt, if_pos hx8, hxa, hno x (by omega)]
          rw [if_neg (by omega)] at hv
          exact hv
        · rw [if_neg hxt]
          by_cases hxo : old.tag = x / 512
          · rw [if_pos hxo] at hv
            have hxe : old.tag * 512 + a / 8 % 64 * 8 + x % 8 = x := by omega
            rw [← hv, ← hin (x % 8) (by omega), hxe]
          · rw [if_neg hxo] at hv
            rw [hno x (by omega)]
            exact hv
      · simp only [if_neg hll]
        rw [hno x (by omega)]
        exact hv
    · rw [hC]
      simp

/-- The function `write` keeps the invariant, for the memory content with
the written byte stored at the address. -/
theorem write_inv (s : State) (mem : Nat → Nat) (a : Nat) (ha : a < 65536)
    (hc : s.curAddr = a) (hp : s.parsedAddr = parseAddr a) (hI : Inv s mem) :
    Inv (write s) (upd mem a (s.curVal % 256)) := by
  obtain ⟨hI1, ht1⟩ := wbl_inv s mem a ha hc hp hI
  obtain ⟨hp1, _, hv1, _, _⟩ := wbl_frame s
  have hline : (writebackAndLoadIfNecessary s).1.parsedAddr.line = a / 8 % 64 := by
    rw [hp1, hp, parseAddr_eq]
  have htag : (writebackAndLoadIfNecessary s).1.parsedAddr.tag = a / 512 := by
    rw [hp1, hp, parseAddr_eq]
  have hoff : (writebackAndLoadIfNecessary s).1.parsedAddr.offset = a % 8 := by
    rw [hp1, hp, parseAddr_eq]
  have hC : ∀ k, (write s).CACHE k =
      if k = a / 8 % 64 then
        { tag := a / 512
          value := upd ((writebackAndLoadIfNecessary s).1.CACHE (a / 8 % 64)).value (a % 8)
            (s.curVal % 256)
          dirty := 1 }
      else (writebackAndLoadIfNecessary s).1.CACHE k := by
    intro k
    simp only [write, hline, htag, hoff, hv1, upd]
    split_ifs <;> rfl
  have hR : (write s).RAM = (writebackAndLoadIfNecessary s).1.RAM := rfl
  generalize (writebackAndLoadIfNecessary s).1 = s1 at hI1 ht1 hC hR
  refine ⟨?_, ?_, ?_⟩
  · intro l hl
    rw [hC l]
    split_ifs with hll
    · show a / 512 < 128
      omega
    · exact hI1.tag_lt l hl
  · intro l hl hd i hi
    rw [hC l] at hd ⊢
    by_cases hll : l = a / 8 % 64
    · simp [hll] at hd
    · simp only [if_neg hll] at hd ⊢
      rw [hR]
      exact hI1.clean l hl hd i hi
  · intro x hx
    have hv := hI1.view x hx
    simp only [State.view] at hv ⊢
    rw [hC, hR]
    by_cases hll : x / 8 % 64 = a / 8 % 64
    · simp only [if_pos hll]
      rw [hll, ht1] at hv
      by_cases hxt : a / 512 = x / 512
      · rw [if_pos hxt] at hv ⊢
        by_cases hxa : x = a
        · subst hxa
          simp [upd]
        · have e8 : ¬ (x % 8 = a % 8) := by omega
          simp only [upd, if_neg e8, if_neg hxa]
          exact hv
      · rw [if_neg hxt] at hv ⊢
        have hxa : ¬ (x = a) := by
          intro hxa
          subst hxa
          exact hxt rfl
        simp only [upd, if_neg hxa]
        exact hv
    · simp only [if_neg hll] at hv ⊢
      have hxa : ¬ (x = a) := by
        intro hxa
        subst hxa
        exact hll rfl
      simp only [upd, if_neg hxa]
      exact hv

/-- The function `read` keeps the invariant and appends one line to `outfile`:
the address, the eight bytes that memory holds for the block of the address,
and the two flags. -/
theorem read_inv (s : State) (mem : Nat → Nat) (a : Nat) (ha : a < 65536)
    (hc : s.curAddr = a) (hp : s.parsedAddr = parseAddr a) (hI : Inv s mem) :
    Inv (read s) mem ∧
    ∃ hit wasDirty, (read s).outfile = s.outfile ++
      [⟨a, (List.range 8).map (fun i => mem (a - a % 8 + i)), hit, wasDirty⟩] := by
  obtain ⟨hI1, ht1⟩ := wbl_inv s mem a ha hc hp hI
  obtain ⟨hp1, hc1, _, _, ho1⟩ := wbl_frame s
  have hline : (writebackAndLoadIfNecessary s).1.parsedAddr.line = a / 8 % 64 := by
    rw [hp1, hp, parseAddr_eq]
  constructor
  · exact ⟨hI1.tag_lt, hI1.clean, hI1.view⟩
  · refine ⟨(writebackAndLoadIfNecessary s).2, (s.CACHE s.parsedAddr.line).dirty, ?_⟩
    simp only [read, hline, hc1, hc, ho1]
    have hb : ∀ i, i < 8 →
        ((writebackAndLoadIfNecessary s).1.CACHE (a / 8 % 64)).value i = mem (a - a % 8 + i) := by
      intro i hi
      have hv := hI1.view (a - a % 8 + i) (by omega)
      simp only [State.view] at hv
      have e1 : (a - a % 8 + i) / 8 % 64 = a / 8 % 64 := by omega
      have e2 : (a - a % 8 + i) / 512 = a / 512 := by omega
      have e3 : (a - a % 8 + i) % 8 = i := by omega
      rw [e1, e2, e3, if_pos ht1] at hv
      exact hv
    simp [range_BLOCK_SIZE, List.range_succ, hb]

/-- The most recent write after one more record. -/
theorem lastWrite_append_singleton (pre : List Rec) (r : Rec) (x : Nat) :
    lastWrite (pre ++ [r]) x =
      if r.op ≠ 0 ∧ r.addr = x then r.val else lastWrite pre x := by
  simp only [lastWrite, List.reverse_append, List.reverse_cons, List.reverse_nil,
    List.nil_append, List.singleton_append, List.find?_cons]
  by_cases h : r.op ≠ 0 ∧ r.addr = x
  · simp [h]
  · rw [if_neg h]
    have hb : (!decide (r.op = 0) && decide (r.addr = x)) = false := by
      simp only [ne_eq, not_and] at h
      by_cases ho : r.op = 0
      · simp [ho]
      · simp [ho, h ho]
    simp only [ne_eq, decide_not, hb]

/-- The array `memory[]` of the generator holds the most recent write to each
address, when the written values are bytes. -/
theorem lastWrite_eq_memory (pre : List Rec) (hpre : ∀ r, r ∈ pre → r.val < 256) (x : Nat) :
    lastWrite pre x = dmcacheTest.memory pre x := by
  induction pre using List.reverseRecOn with
  | nil => rfl
  | append_singleton l r ih =>
    have ih2 := ih (fun q hq => hpre q (List.mem_append_left _ hq))
    have hr := hpre r (by simp)
    rw [lastWrite_append_singleton]
    simp only [dmcacheTest.memory, List.foldl_append, List.foldl_cons, List.foldl_nil]
    simp only [dmcacheTest.memory] at ih2
    by_cases ho : r.op ≠ 0
    · rw [if_pos ho]
      simp only [upd]
      by_cases hx : x = r.addr
      · subst hx
        simp [ho, Nat.mod_eq_of_lt hr]
      · have hx2 : ¬ (r.addr = x) := fun h => hx h.symm
        simp [hx, hx2, ih2]
    · rw [if_neg ho]
      simp [ho, ih2]

theorem dm_run_append_singleton (s : State) (pre : List Rec) (r : Rec) :
    run s (pre ++ [r]) = exec (run s pre) r := by
  simp [run, List.foldl_append]

theorem dm_run_cons (s : State) (r : Rec) (post : List Rec) :
    run s (r :: post) = run (exec s r) post := rfl

theorem dm_run_append (s : State) (pre post : List Rec) :
    run s (pre ++ post) = run (run s pre) post := by
  simp [run, List.foldl_append]

/-- Executing one record keeps the invariant, for the memory content after
the record. -/
theorem exec_inv (s : State) (pre : List Rec) (r : Rec) (ha : r.addr < 65536)
    (hv : r.val < 256) (hI : Inv s (lastWrite pre)) :
    Inv (exec s r) (lastWrite (pre ++ [r])) := by
  have hmem : lastWrite (pre ++ [r]) =
      if r.op ≠ 0 then upd (lastWrite pre) r.addr (r.val % 256) else lastWrite pre := by
    funext x
    rw [lastWrite_append_singleton, Nat.mod_eq_of_lt hv]
    by_cases ho : r.op ≠ 0
    · simp only [if_pos ho, upd]
      by_cases hx : x = r.addr
      · subst hx
        simp [ho]
      · have hx2 : ¬ (r.addr = x) := fun h => hx h.symm
        simp [hx, hx2]
    · simp [ho]
  generalize hs2 : ({ s with
    curAddr := r.addr, parsedAddr := parseAddr r.addr, curOp := r.op, curVal := r.val } : State)
    = s2
  have hI2 : Inv s2 (lastWrite pre) := by
    rw [← hs2]
    exact ⟨hI.tag_lt, hI.clean, hI.view⟩
  have hex : exec s r = if r.op ≠ 0 then write s2 else read s2 := by
    rw [← hs2]
    rfl
  have hc2 : s2.curAddr = r.addr := by rw [← hs2]
  have hp2 : s2.parsedAddr = parseAddr r.addr := by rw [← hs2]
  rw [hmem, hex]
  split_ifs with ho
  · have hw := write_inv s2 _ r.addr ha hc2 hp2 hI2
    have hv2 : s2.curVal = r.val := by rw [← hs2]
    rw [hv2] at hw
    exact hw
  · exact (read_inv s2 _ r.addr ha hc2 hp2 hI2).1

/-- The invariant holds in the zero-initialised state, for the all-zero memory. -/
theorem init_inv : Inv State.init (lastWrite []) := by
  refine ⟨?_, ?_, ?_⟩
  · intro l _
    show 0 < 128
    omega
  · intro l _ _ i _
    rfl
  · intro x _
    simp [State.view, State.init, lastWrite]

/-- The invariant holds after every trace of 16-bit addresses and byte values. -/
theorem run_inv (pre : List Rec) (hpre : ∀ r, r ∈ pre → r.addr < 65536 ∧ r.val < 256) :
    Inv (run State.init pre) (lastWrite pre) := by
  induction pre using List.reverseRecOn with
  | nil => exact init_inv
  | append_singleton l r ih =>
    rw [dm_run_append_singleton]
    have hr := hpre r (by simp)
    exact exec_inv _ l r hr.1 hr.2 (ih (fun q hq => hpre q (List.mem_append_left _ hq)))

/-- Executing a record only appends to `outfile`. -/
theorem exec_outfile (s : State) (r : Rec) : ∃ more, (exec s r).outfile = s.outfile ++ more := by
  simp only [exec]
  split_ifs
  · refine ⟨[], ?_⟩
    simp only [write, List.append_nil]
    exact (wbl_frame _).2.2.2.2
  · simp only [read, (wbl_frame _).2.2.2.2]
    exact ⟨_, rfl⟩

/-- Executing a trace only appends to `outfile`. -/
theorem run_outfile (s : State) (post : List Rec) :
    ∃ more, (run s post).outfile = s.outfile ++ more := by
  induction post generalizing s with
  | nil => exact ⟨[], by simp [run]⟩
  | cons r post ih =>
    obtain ⟨m1, h1⟩ := exec_outfile s r
    obtain ⟨m2, h2⟩ := ih (exec s r)
    exact ⟨m1 ++ m2, by rw [dm_run_cons, h2, h1, List.append_assoc]⟩

/-- C9: `dmcache` is transparent. In a trace of records with 16-bit addresses
and 8-bit values executed from zeroed `CACHE` and `RAM`, a read of address
`a` that follows the records `pre` appends to the output one line for `a`
whose block holds, at each index `i` in 0..7, the value of the most recent
write of `pre` to the address `(a & ~7) + i`, or 0 if there was none; this is
what the array `memory[]` of the test generator holds at that address. -/
theorem transparent (pre post : List Rec) (a v : Nat)
    (hpre : ∀ r, r ∈ pre → r.addr < 65536 ∧ r.val < 256) (ha : a < 65536) :
    (∃ hit wasDirty more,
      (run State.init (pre ++ ⟨a, 0, v⟩ :: post)).outfile =
        (run State.init pre).outfile ++
          ⟨a, (List.range 8).map (fun i => lastWrite pre (a - a % 8 + i)), hit, wasDirty⟩ ::
            more) ∧
    ∀ x, lastWrite pre x = dmcacheTest.memory pre x := by
  refine ⟨?_, lastWrite_eq_memory pre (fun r hr => (hpre r hr).2)⟩
  have hI := run_inv pre hpre
  have hread : exec (run State.init pre) ⟨a, 0, v⟩ =
      read { run State.init pre with
        curAddr := a, parsedAddr := parseAddr a, curOp := 0, curVal := v } := by
    simp [exec]
  obtain ⟨_, hit, wasDirty, hout⟩ := read_inv
    { run State.init pre with curAddr := a, parsedAddr := parseAddr a, curOp := 0, curVal := v }
    (lastWrite pre) a ha rfl rfl ⟨hI.tag_lt, hI.clean, hI.view⟩
  obtain ⟨more, hmore⟩ := run_outfile (exec (run State.init pre) ⟨a, 0, v⟩) post
  refine ⟨hit, wasDirty, more, ?_⟩
  rw [dm_run_append, dm_run_cons, hmore, hread, hout]
  simp

/-- Instance of C9: after `write(0x1234, 0xAB)` and `write(0x9234, 0xCD)`,
which map to the same line, the read of `0x1235` prints the block of `0x1230`
with `0xAB` at index 4. -/
theorem transparent_witness :
    (∀ r, r ∈ [(⟨0x1234, 1, 0xAB⟩ : Rec), ⟨0x9234, 1, 0xCD⟩] → r.addr < 65536 ∧ r.val < 256) ∧
    0x1235 < 65536 ∧
    ((∃ hit wasDirty more,
      (run State.init ([⟨0x1234, 1, 0xAB⟩, ⟨0x9234, 1, 0xCD⟩] ++ ⟨0x1235, 0, 0⟩ :: [])).outfile =
        (run State.init [⟨0x1234, 1, 0xAB⟩, ⟨0x9234, 1, 0xCD⟩]).outfile ++
          ⟨0x1235, (List.range 8).map
            (fun i => lastWrite [⟨0x1234, 1, 0xAB⟩, ⟨0x9234, 1, 0xCD⟩] (0x1235 - 0x1235 % 8 + i)),
            hit, wasDirty⟩ :: more) ∧
     ∀ x, lastWrite [⟨0x1234, 1, 0xAB⟩, ⟨0x9234, 1, 0xCD⟩] x =
       dmcacheTest.memory [⟨0x1234, 1, 0xAB⟩, ⟨0x9234, 1, 0xCD⟩] x) :=
  ⟨by decide, by decide,
   transparent [⟨0x1234, 1, 0xAB⟩, ⟨0x9234, 1, 0xCD⟩] [] 0x1235 0 (by decide) (by decide)⟩

end dmcache

/-! ## Output text and set windows of `sacache` on concrete traces -/

namespace sacache

/-- C11 (output format), evaluated on the trace of two reads of `0x0008`: the
line of the first read starts with the address padded with blanks, `"   8"`,
not `"0008"`, because `setw(4)` is applied before any `setfill('0')`; the
second read, after the fill character has been set while the first block was
printed, is padded with zeros. -/
theorem first_read_address_blank_padded :
    (run State.init [⟨0x0008, 0, 0⟩, ⟨0x0008, 0, 0⟩]).output.map OutLine.text =
      ["   8 0000000000000000 1 0\n".toList, "0008 0000000000000000 1 0\n".toList] := by
  decide

/-- C12 (set partition), evaluated: line 1 of `CACHE` is scanned both for
set 0 (as `p_set[1]`) and for set 1 (as `p_set[0]`). After `write(0x0080, 5)`
line 1 holds tag 0, a zero byte, a clear dirty flag and counter 1; the access
`write(0x0100, 6)` to set 0 leaves it with tag 2, byte 6, a set dirty flag and
counter 0; and the read of `0x0108`, an address of set 1 that was never
accessed, then hits this line and prints the byte 6. -/
theorem set_windows_overlap :
    (Address.ofValue 0x0100).getSet = 0 ∧ (Address.ofValue 0x0108).getSet = 1 ∧
    (Address.ofValue 0x0100).getSet + 1 = (Address.ofValue 0x0108).getSet + 0 ∧
    (((run State.init [⟨0x0080, 1, 5⟩]).CACHE 1).tag,
      ((run State.init [⟨0x0080, 1, 5⟩]).CACHE 1).value 0,
      ((run State.init [⟨0x0080, 1, 5⟩]).CACHE 1).dirty,
      ((run State.init [⟨0x0080, 1, 5⟩]).CACHE 1).counter) = (0, 0, false, 1) ∧
    (((run State.init [⟨0x0080, 1, 5⟩, ⟨0x0100, 1, 6⟩]).CACHE 1).tag,
      ((run State.init [⟨0x0080, 1, 5⟩, ⟨0x0100, 1, 6⟩]).CACHE 1).value 0,
      ((run State.init [⟨0x0080, 1, 5⟩, ⟨0x0100, 1, 6⟩]).CACHE 1).dirty,
      ((run State.init [⟨0x0080, 1, 5⟩, ⟨0x0100, 1, 6⟩]).CACHE 1).counter) = (2, 6, true, 0) ∧
    (run State.init [⟨0x0080, 1, 5⟩, ⟨0x0100, 1, 6⟩, ⟨0x0108, 0, 0⟩]).output =
      [⟨0x0108, ' ', [6, 0, 0, 0, 0, 0, 0, 0], 1, 1⟩] := by
  decide

end sacache

/-! ## Frame properties of `getLine`, `read` and `write` -/

namespace sacache

/-- The scan does not touch a line outside the four lines of the set. -/
theorem scan_CACHE_outside (ad : Address) (c : Nat → CacheLine) (k : Nat)
    (hk : k < ad.getSet ∨ ad.getSet + 4 ≤ k) : (scan ad c).CACHE k = c k := by
  simp only [scan, range_CACHE_WAYS, List.foldl, scanStep, upd]
  split_ifs <;> first | rfl | (exfalso; omega)

/-- The active line of `getLine` is one of the four lines of the set. -/
theorem getLine_p_line_mem (s : State) (ad : Address) (isRead : Bool) :
    ∃ i, i < CACHE_WAYS ∧ (getLine s ad isRead).p_line = ad.getSet + i := by
  cases h : (scan ad s.CACHE).p_line with
  | none =>
    rw [getLine_p_line_miss s ad isRead h]
    exact scan_p_lru_mem ad s.CACHE
  | some p =>
    rw [getLine_p_line_hit s ad isRead p h]
    exact (scan_p_line_some ad s.CACHE p h).1

/-- The counter of the active line is 0 after `getLine`. -/
theorem getLine_counter_p_line (s : State) (ad : Address) (isRead : Bool) :
    ((getLine s ad isRead).state.CACHE (getLine s ad isRead).p_line).counter = 0 := by
  simp only [getLine]
  split_ifs <;> simp [upd]

/-- The dirty flag of the active line after `getLine`: unchanged on a hit,
clear on a miss. -/
theorem getLine_dirty_p_line (s : State) (ad : Address) (isRead : Bool) :
    ((getLine s ad isRead).state.CACHE (getLine s ad isRead).p_line).dirty =
      if (getLine s ad isRead).cacheHit = 0 then false
      else (s.CACHE (getLine s ad isRead).p_line).dirty := by
  simp only [getLine]
  split_ifs <;> simp_all [upd, scan_dirty]

/-- The flag `cacheHit` is 0 or 1. -/
theorem getLine_cacheHit_cases (s : State) (ad : Address) (isRead : Bool) :
    (getLine s ad isRead).cacheHit = 0 ∨ (getLine s ad isRead).cacheHit = 1 := by
  rw [getLine_cacheHit]
  split_ifs
  · exact Or.inr rfl
  · exact Or.inl rfl

/-- The function `write` stores nothing into `RAM` and leaves every counter
as `getLine` left it. -/
theorem write_RAM_counter (s : State) (ad : Address) (v : Nat) :
    (write s ad v).RAM = (getLine s ad false).state.RAM ∧
    ∀ k, ((write s ad v).CACHE k).counter = ((getLine s ad false).state.CACHE k).counter := by
  refine ⟨rfl, fun k => ?_⟩
  rw [write_CACHE]
  split_ifs with hk
  · rw [hk]
  · rfl

/-- C15: for every state and address, after `getLine` (and so after `read`,
and after `write`, which stores into no counter) the active line has counter
0, every other line of the four scanned lines has its counter incremented by
one modulo `2 ^ 32`, and the counter of every line outside the scanned lines
is unchanged. -/
theorem counters_after_access (s : State) (a : Nat) (isRead : Bool) (v : Nat) :
    ((getLine s (Address.ofValue a) isRead).state.CACHE
      (getLine s (Address.ofValue a) isRead).p_line).counter = 0 ∧
    (∀ i, i < CACHE_WAYS →
      (Address.ofValue a).getSet + i ≠ (getLine s (Address.ofValue a) isRead).p_line →
      ((getLine s (Address.ofValue a) isRead).state.CACHE ((Address.ofValue a).getSet + i)).counter =
        ((s.CACHE ((Address.ofValue a).getSet + i)).counter + 1) % 4294967296) ∧
    (∀ k, (k < (Address.ofValue a).getSet ∨ (Address.ofValue a).getSet + CACHE_WAYS ≤ k) →
      ((getLine s (Address.ofValue a) isRead).state.CACHE k).counter = (s.CACHE k).counter) ∧
    (read s (Address.ofValue a)).1 = (getLine s (Address.ofValue a) true).state ∧
    (∀ k, ((write s (Address.ofValue a) v).CACHE k).counter =
      ((getLine s (Address.ofValue a) false).state.CACHE k).counter) := by
  generalize Address.ofValue a = ad
  refine ⟨getLine_counter_p_line s ad isRead, ?_, ?_, rfl, (write_RAM_counter s ad v).2⟩
  · intro i hi hne
    simp only [CACHE_WAYS] at hi
    rw [getLine_CACHE_other s ad isRead _ hne, scan_counter, if_pos ⟨by omega, by omega⟩]
  · intro k hk
    simp only [CACHE_WAYS] at hk
    obtain ⟨j, hj, hjp⟩ := getLine_p_line_mem s ad isRead
    simp only [CACHE_WAYS] at hj
    have hne : k ≠ (getLine s ad isRead).p_line := by
      rw [hjp]
      omega
    rw [getLine_CACHE_other s ad isRead _ hne, scan_CACHE_outside ad s.CACHE k hk]

/-- Instance of C15 on the initial state: after the read of `0x0080` the
line 1 of set 0, which is not the active line, has counter 1. -/
theorem counters_after_access_witness :
    1 < CACHE_WAYS ∧
    (Address.ofValue 0x0080).getSet + 1 ≠ (getLine State.init (Address.ofValue 0x0080) true).p_line ∧
    ((getLine State.init (Address.ofValue 0x0080) true).state.CACHE
      ((Address.ofValue 0x0080).getSet + 1)).counter =
      ((State.init.CACHE ((Address.ofValue 0x0080).getSet + 1)).counter + 1) % 4294967296 :=
  ⟨by decide, by decide,
   (counters_after_access State.init 0x0080 true 0).2.1 1 (by decide) (by decide)⟩

/-- The flag `wasDirty` is 0 or 1. -/
theorem getLine_wasDirty_cases (s : State) (ad : Address) (isRead : Bool) :
    (getLine s ad isRead).wasDirty = 0 ∨ (getLine s ad isRead).wasDirty = 1 := by
  rw [getLine_wasDirty]
  split_ifs
  · exact Or.inr rfl
  · exact Or.inl rfl

/-- The address `Address(p_line->tag, set).get()` of the write-back, for a
stored tag that is a byte and a four-bit set index. -/
theorem writeback_address (t set : Nat) (ht : t < 256) (hs : set < 16) :
    (Address.ofTagSet t set).get = (t <<< 7) ||| (set <<< 3) ∧
    (Address.ofTagSet t set).get = t * 128 + set * 8 := by
  have h := Address.ofTagSet_value t set (by omega) hs
  rw [shl7_or_shl3 t set hs]
  exact ⟨h, h⟩

/-- C16: for every state whose stored tags are bytes and for every access,
`RAM` after `getLine` (and so after `read`, and after `write`, which stores
nothing into `RAM`) is unchanged when the access is a hit or when the
replaced line was clean; on a miss that replaces a dirty line exactly the 8
bytes at `(replaced.tag << 7) | (set << 3)` are overwritten with the data of
the replaced line and every other byte is unchanged. -/
theorem RAM_after_access (s : State) (a : Nat) (isRead : Bool) (v : Nat)
    (htag : ∀ k, (s.CACHE k).tag < 256) :
    ((getLine s (Address.ofValue a) isRead).cacheHit = 1 ∨
      (getLine s (Address.ofValue a) isRead).wasDirty = 0 →
      (getLine s (Address.ofValue a) isRead).state.RAM = s.RAM) ∧
    ((getLine s (Address.ofValue a) isRead).cacheHit = 0 →
      (getLine s (Address.ofValue a) isRead).wasDirty = 1 →
      ∀ k, (getLine s (Address.ofValue a) isRead).state.RAM k =
        if ((s.CACHE (getLine s (Address.ofValue a) isRead).p_line).tag <<< 7) |||
              ((Address.ofValue a).getSet <<< 3) ≤ k ∧
            k < (((s.CACHE (getLine s (Address.ofValue a) isRead).p_line).tag <<< 7) |||
              ((Address.ofValue a).getSet <<< 3)) + 8 then
          (s.CACHE (getLine s (Address.ofValue a) isRead).p_line).value
            (k - (((s.CACHE (getLine s (Address.ofValue a) isRead).p_line).tag <<< 7) |||
              ((Address.ofValue a).getSet <<< 3)))
        else s.RAM k) ∧
    (read s (Address.ofValue a)).1.RAM = (getLine s (Address.ofValue a) true).state.RAM ∧
    (write s (Address.ofValue a) v).RAM = (getLine s (Address.ofValue a) false).state.RAM := by
  have hset : (Address.ofValue a).getSet < 16 := by
    simp only [Address.getSet, Address.ofValue_set]
    omega
  generalize Address.ofValue a = ad at hset ⊢
  refine ⟨?_, ?_, rfl, rfl⟩
  · intro h
    rw [getLine_RAM]
    rcases h with h | h
    · rw [if_neg]
      intro hc
      rw [h] at hc
      exact absurd hc.1 (by decide)
    · rw [if_neg]
      intro hc
      exact hc.2 h
  · intro hmiss hdirty k
    rw [getLine_RAM, if_pos ⟨hmiss, by rw [hdirty]; decide⟩, writeBack_apply,
      (writeback_address _ _ (htag _) hset).1]

/-- Instance of C16: after `write(0x0080, 5)` on the initial state the read
of `0x0100`, `0x0180`, `0x0200` and then `0x0280` replaces the dirty line of
`0x0080`, and `RAM[0x0080]` holds 5 afterwards. -/
theorem RAM_after_access_witness :
    (∀ k, ((run State.init [⟨0x0080, 1, 5⟩, ⟨0x0100, 0, 0⟩, ⟨0x0180, 0, 0⟩,
      ⟨0x0200, 0, 0⟩]).CACHE k).tag < 256) ∧
    (getLine (run State.init [⟨0x0080, 1, 5⟩, ⟨0x0100, 0, 0⟩, ⟨0x0180, 0, 0⟩, ⟨0x0200, 0, 0⟩])
      (Address.ofValue 0x0280) true).cacheHit = 0 ∧
    (getLine (run State.init [⟨0x0080, 1, 5⟩, ⟨0x0100, 0, 0⟩, ⟨0x0180, 0, 0⟩, ⟨0x0200, 0, 0⟩])
      (Address.ofValue 0x0280) true).wasDirty = 1 ∧
    (getLine (run State.init [⟨0x0080, 1, 5⟩, ⟨0x0100, 0, 0⟩, ⟨0x0180, 0, 0⟩, ⟨0x0200, 0, 0⟩])
      (Address.ofValue 0x0280) true).state.RAM 0x0080 = 5 := by
  have htag : ∀ k, ((run State.init [⟨0x0080, 1, 5⟩, ⟨0x0100, 0, 0⟩, ⟨0x0180, 0, 0⟩,
      ⟨0x0200, 0, 0⟩]).CACHE k).tag < 256 := by
    intro k
    rcases run_tag_origin [⟨0x0080, 1, 5⟩, ⟨0x0100, 0, 0⟩, ⟨0x0180, 0, 0⟩, ⟨0x0200, 0, 0⟩] k
      with h | ⟨q, _, hq⟩
    · rw [h]
      decide
    · rw [← hq]
      exact Nat.mod_lt _ (by decide)
  refine ⟨htag, by decide, by decide, ?_⟩
  rw [(RAM_after_access _ 0x0280 true 0 htag).2.1 (by decide) (by decide) 0x0080]
  decide

/-- Every tag of the initial state is a byte. -/
theorem init_tag_lt (k : Nat) : (State.init.CACHE k).tag < 256 :=
  Nat.succ_pos 255

/-- On a miss the replaced line does not store the tag of the address. -/
theorem getLine_miss_tag_ne (s : State) (ad : Address) (isRead : Bool)
    (hmiss : (getLine s ad isRead).cacheHit = 0) :
    (s.CACHE (getLine s ad isRead).p_line).tag ≠ ad.getTag := by
  have hnone : (scan ad s.CACHE).p_line = none := by
    rw [getLine_cacheHit] at hmiss
    cases h : (scan ad s.CACHE).p_line with
    | none => rfl
    | some p => simp [h] at hmiss
  obtain ⟨j, hj, hjp⟩ := getLine_p_line_mem s ad isRead
  rw [hjp]
  exact scan_p_line_none ad s.CACHE hnone j hj

/-- On a miss the block that is refilled is not the block that is written
back, so the refill reads `RAM` as it was before the access. -/
theorem getLine_miss_RAM_block (s : State) (a : Nat) (isRead : Bool) (ha : a < 65536)
    (htag : ∀ k, (s.CACHE k).tag < 256)
    (hmiss : (getLine s (Address.ofValue a) isRead).cacheHit = 0) (i : Nat) (hi : i < 8) :
    (getLine s (Address.ofValue a) isRead).state.RAM (a / 8 * 8 + i) = s.RAM (a / 8 * 8 + i) := by
  have hne := getLine_miss_tag_ne s (Address.ofValue a) isRead hmiss
  have ht := htag (getLine s (Address.ofValue a) isRead).p_line
  rw [getLine_RAM]
  split_ifs with h
  · rw [writeBack_apply, if_neg]
    rw [(writeback_address _ _ ht (by simp only [Address.getSet, Address.ofValue_set]; omega)).2]
    simp only [Address.getTag, Address.getSet, Address.ofValue_tag a ha,
      Address.ofValue_set] at hne ⊢
    omega
  · rfl

/-- C17: for every state whose stored tags are bytes, every 16-bit address
`a` and every byte `v`: the access of `write(a, v)` is a hit exactly when one
of the four scanned lines stores the tag of `a`; the active line is one of the
four scanned lines, on a hit one that stores the tag of `a`; after the write
the active line is dirty, stores the tag of `a` as a byte, its byte at offset
`a mod 8` is `v`, and every other byte `i` of the line is the byte `i` the
line held before the write when the access was a hit, the byte of `RAM` at
`(a & ~7) + i` as it was before the write when the access was a miss; the
data, tag and dirty flag of every other line are as before the write. -/
theorem write_allocate (s : State) (a v : Nat) (ha : a < 65536) (hv : v < 256)
    (htag : ∀ k, (s.CACHE k).tag < 256) :
    ((getLine s (Address.ofValue a) false).cacheHit = 1 ↔
      ∃ j, j < CACHE_WAYS ∧
        (s.CACHE ((Address.ofValue a).getSet + j)).tag = (Address.ofValue a).getTag) ∧
    ((getLine s (Address.ofValue a) false).cacheHit = 0 ↔
      ∀ j, j < CACHE_WAYS →
        (s.CACHE ((Address.ofValue a).getSet + j)).tag ≠ (Address.ofValue a).getTag) ∧
    (∃ j, j < CACHE_WAYS ∧
      (getLine s (Address.ofValue a) false).p_line = (Address.ofValue a).getSet + j) ∧
    ((getLine s (Address.ofValue a) false).cacheHit = 1 →
      (s.CACHE (getLine s (Address.ofValue a) false).p_line).tag = (Address.ofValue a).getTag) ∧
    ((write s (Address.ofValue a) v).CACHE (getLine s (Address.ofValue a) false).p_line).dirty =
      true ∧
    ((write s (Address.ofValue a) v).CACHE (getLine s (Address.ofValue a) false).p_line).tag =
      (Address.ofValue a).getTag % 256 ∧
    ((write s (Address.ofValue a) v).CACHE (getLine s (Address.ofValue a) false).p_line).value
      (a % 8) = v ∧
    (∀ i, i < 8 → i ≠ a % 8 →
      ((write s (Address.ofValue a) v).CACHE (getLine s (Address.ofValue a) false).p_line).value i =
        if (getLine s (Address.ofValue a) false).cacheHit = 1 then
          (s.CACHE (getLine s (Address.ofValue a) false).p_line).value i
        else s.RAM (a / 8 * 8 + i)) ∧
    (∀ k, k ≠ (getLine s (Address.ofValue a) false).p_line →
      ((write s (Address.ofValue a) v).CACHE k).value = (s.CACHE k).value ∧
      ((write s (Address.ofValue a) v).CACHE k).tag = (s.CACHE k).tag ∧
      ((write s (Address.ofValue a) v).CACHE k).dirty = (s.CACHE k).dirty) ∧
    a % 8 = a &&& 7 ∧ a / 8 * 8 = a &&& 0xFFF8 := by
  have hoff : (Address.ofValue a).getOffset = a % 8 := Address.ofValue_offset a
  have hblock : (Address.ofValue a).ramBlock = a / 8 * 8 := Address.ofValue_ramBlock a ha
  have hmask : a / 8 * 8 = a &&& 0xFFF8 := (and_not_7 a 13 (by omega)).symm
  have hiff : (getLine s (Address.ofValue a) false).cacheHit = 1 ↔
      ∃ j, j < CACHE_WAYS ∧
        (s.CACHE ((Address.ofValue a).getSet + j)).tag = (Address.ofValue a).getTag := by
    rw [← scan_p_line_isSome, getLine_cacheHit]
    cases (scan (Address.ofValue a) s.CACHE).p_line <;> simp
  refine ⟨hiff, ?_, getLine_p_line_mem s _ false, ?_, ?_, ?_, ?_, ?_, ?_,
    (and_7_eq_mod a).symm, hmask⟩
  · constructor
    · intro hmiss j hj hc
      have h1 := hiff.2 ⟨j, hj, hc⟩
      rw [hmiss] at h1
      exact absurd h1 (by decide)
    · intro hno
      rcases getLine_cacheHit_cases s (Address.ofValue a) false with hmiss | hhit
      · exact hmiss
      · obtain ⟨j, hj, hc⟩ := hiff.1 hhit
        exact absurd hc (hno j hj)
  · intro hhit
    cases h : (scan (Address.ofValue a) s.CACHE).p_line with
    | none => simp [getLine_cacheHit, h] at hhit
    | some p =>
      rw [getLine_p_line_hit s _ false p h]
      exact (scan_p_line_some _ _ p h).2
  · rw [write_CACHE, if_pos rfl]
  · rw [write_CACHE, if_pos rfl]
  · rw [write_CACHE, if_pos rfl, hoff]
    simp [upd, Nat.mod_eq_of_lt hv]
  · intro i hi hne
    rw [write_CACHE, if_pos rfl, hoff]
    simp only [upd, if_neg hne]
    rw [getLine_value_p_line]
    rcases getLine_cacheHit_cases s (Address.ofValue a) false with hmiss | hhit
    · rw [if_pos hmiss, if_neg (by rw [hmiss]; decide), refill_apply, if_pos hi, hblock]
      exact getLine_miss_RAM_block s a false ha htag hmiss i hi
    · rw [if_neg (by rw [hhit]; decide), if_pos hhit]
  · intro k hk
    rw [write_CACHE, if_neg hk, getLine_CACHE_other s _ false k hk, scan_value, scan_tag,
      scan_dirty]
    exact ⟨rfl, rfl, rfl⟩

/-- Instance of C17: after `write(0x0080, 5)` and the reads of `0x0100`,
`0x0180`, `0x0200` and `0x0280`, which write the dirty line of `0x0080` back,
`write(0x0081, 7)` is a miss; the line it replaces held 0 at offset 0, and
after the write the line holds `RAM[0x0080] = 5` at offset 0 and 7 at
offset 1. -/
theorem write_allocate_witness :
    0x0081 < 65536 ∧ 7 < 256 ∧
    (∀ k, ((run State.init
        [⟨0x80, 1, 5⟩, ⟨0x100, 0, 0⟩, ⟨0x180, 0, 0⟩, ⟨0x200, 0, 0⟩, ⟨0x280, 0, 0⟩]).CACHE k).tag < 256) ∧
    (getLine (run State.init
        [⟨0x80, 1, 5⟩, ⟨0x100, 0, 0⟩, ⟨0x180, 0, 0⟩, ⟨0x200, 0, 0⟩, ⟨0x280, 0, 0⟩])
      (Address.ofValue 0x0081) false).cacheHit = 0 ∧
    ((run State.init
        [⟨0x80, 1, 5⟩, ⟨0x100, 0, 0⟩, ⟨0x180, 0, 0⟩, ⟨0x200, 0, 0⟩, ⟨0x280, 0, 0⟩]).CACHE
      (getLine (run State.init
        [⟨0x80, 1, 5⟩, ⟨0x100, 0, 0⟩, ⟨0x180, 0, 0⟩, ⟨0x200, 0, 0⟩, ⟨0x280, 0, 0⟩])
        (Address.ofValue 0x0081) false).p_line).value 0 = 0 ∧
    (run State.init
        [⟨0x80, 1, 5⟩, ⟨0x100, 0, 0⟩, ⟨0x180, 0, 0⟩, ⟨0x200, 0, 0⟩, ⟨0x280, 0, 0⟩]).RAM (0x0081 / 8 * 8 + 0) = 5 ∧
    ((write (run State.init
        [⟨0x80, 1, 5⟩, ⟨0x100, 0, 0⟩, ⟨0x180, 0, 0⟩, ⟨0x200, 0, 0⟩, ⟨0x280, 0, 0⟩])
      (Address.ofValue 0x0081) 7).CACHE
      (getLine (run State.init
        [⟨0x80, 1, 5⟩, ⟨0x100, 0, 0⟩, ⟨0x180, 0, 0⟩, ⟨0x200, 0, 0⟩, ⟨0x280, 0, 0⟩])
        (Address.ofValue 0x0081) false).p_line).value (0x0081 % 8) = 7 ∧
    ((write (run State.init
        [⟨0x80, 1, 5⟩, ⟨0x100, 0, 0⟩, ⟨0x180, 0, 0⟩, ⟨0x200, 0, 0⟩, ⟨0x280, 0, 0⟩])
      (Address.ofValue 0x0081) 7).CACHE
      (getLine (run State.init
        [⟨0x80, 1, 5⟩, ⟨0x100, 0, 0⟩, ⟨0x180, 0, 0⟩, ⟨0x200, 0, 0⟩, ⟨0x280, 0, 0⟩])
        (Address.ofValue 0x0081) false).p_line).value 0 = 5 := by
  have htag : ∀ k, ((run State.init
        [⟨0x80, 1, 5⟩, ⟨0x100, 0, 0⟩, ⟨0x180, 0, 0⟩, ⟨0x200, 0, 0⟩, ⟨0x280, 0, 0⟩]).CACHE k).tag < 256 := by
    intro k
    rcases run_tag_origin
        [⟨0x80, 1, 5⟩, ⟨0x100, 0, 0⟩, ⟨0x180, 0, 0⟩, ⟨0x200, 0, 0⟩, ⟨0x280, 0, 0⟩] k
      with h | ⟨q, _, hq⟩
    · rw [h]
      decide
    · rw [← hq]
      exact Nat.mod_lt _ (by decide)
  exact ⟨by decide, by decide, htag, by decide, by decide, by decide,
    (write_allocate (run State.init
        [⟨0x80, 1, 5⟩, ⟨0x100, 0, 0⟩, ⟨0x180, 0, 0⟩, ⟨0x200, 0, 0⟩, ⟨0x280, 0, 0⟩])
      0x0081 7 (by decide) (by decide) htag).2.2.2.2.2.2.1,
    ((write_allocate (run State.init
        [⟨0x80, 1, 5⟩, ⟨0x100, 0, 0⟩, ⟨0x180, 0, 0⟩, ⟨0x200, 0, 0⟩, ⟨0x280, 0, 0⟩])
      0x0081 7 (by decide) (by decide) htag).2.2.2.2.2.2.2.1 0
      (by decide) (by decide)).trans (by decide)⟩

/-- C18: for every state whose stored tags are bytes and every 16-bit address
`a`, a read hit leaves `RAM` and the tag, data and dirty flag of every cache
line unchanged, and leaves every line outside the four scanned lines
unchanged altogether; after a read miss the refilled line is clean and holds
the 8 bytes of `RAM` at `a & ~7`, which the read did not store into. -/
theorem read_keeps_clean (s : State) (a : Nat) (ha : a < 65536)
    (htag : ∀ k, (s.CACHE k).tag < 256) :
    ((getLine s (Address.ofValue a) true).cacheHit = 1 →
      (read s (Address.ofValue a)).1.RAM = s.RAM ∧
      (∀ k, ((read s (Address.ofValue a)).1.CACHE k).tag = (s.CACHE k).tag ∧
        ((read s (Address.ofValue a)).1.CACHE k).value = (s.CACHE k).value ∧
        ((read s (Address.ofValue a)).1.CACHE k).dirty = (s.CACHE k).dirty) ∧
      (∀ k, (k < (Address.ofValue a).getSet ∨ (Address.ofValue a).getSet + CACHE_WAYS ≤ k) →
        (read s (Address.ofValue a)).1.CACHE k = s.CACHE k)) ∧
    ((getLine s (Address.ofValue a) true).cacheHit = 0 →
      ((read s (Address.ofValue a)).1.CACHE (getLine s (Address.ofValue a) true).p_line).dirty =
        false ∧
      ∀ i, i < 8 →
        ((read s (Address.ofValue a)).1.CACHE (getLine s (Address.ofValue a) true).p_line).value i =
          (read s (Address.ofValue a)).1.RAM (a / 8 * 8 + i) ∧
        (read s (Address.ofValue a)).1.RAM (a / 8 * 8 + i) = s.RAM (a / 8 * 8 + i)) := by
  have hblock : (Address.ofValue a).ramBlock = a / 8 * 8 := Address.ofValue_ramBlock a ha
  have hread : (read s (Address.ofValue a)).1 = (getLine s (Address.ofValue a) true).state := rfl
  rw [hread]
  constructor
  · intro hhit
    have hne : ¬ ((getLine s (Address.ofValue a) true).cacheHit = 0) := by
      rw [hhit]
      decide
    refine ⟨?_, ?_, ?_⟩
    · rw [getLine_RAM, if_neg (fun hc => hne hc.1)]
    · intro k
      by_cases hk : k = (getLine s (Address.ofValue a) true).p_line
      · rw [hk, getLine_tag_p_line, getLine_value_p_line, getLine_dirty_p_line,
          if_neg hne, if_neg hne, if_neg hne]
        exact ⟨rfl, rfl, rfl⟩
      · rw [getLine_CACHE_other _ _ _ k hk, scan_tag, scan_value, scan_dirty]
        exact ⟨rfl, rfl, rfl⟩
    · intro k hk
      simp only [CACHE_WAYS] at hk
      obtain ⟨j, hj, hjp⟩ := getLine_p_line_mem s (Address.ofValue a) true
      simp only [CACHE_WAYS] at hj
      have hkp : k ≠ (getLine s (Address.ofValue a) true).p_line := by
        rw [hjp]
        omega
      rw [getLine_CACHE_other _ _ _ k hkp, scan_CACHE_outside _ _ k hk]
  · intro hmiss
    refine ⟨?_, ?_⟩
    · rw [getLine_dirty_p_line, if_pos hmiss]
    · intro i hi
      refine ⟨?_, getLine_miss_RAM_block s a true ha htag hmiss i hi⟩
      rw [getLine_value_p_line, if_pos hmiss, refill_apply, if_pos hi, hblock]

/-- Instance of C18 on the initial state: the read of `0x0080` is a miss, the
refilled line is clean and its byte 0 is `RAM[0x0080]`. -/
theorem read_keeps_clean_witness :
    0x0080 < 65536 ∧ (∀ k, (State.init.CACHE k).tag < 256) ∧
    (getLine State.init (Address.ofValue 0x0080) true).cacheHit = 0 ∧
    ((read State.init (Address.ofValue 0x0080)).1.CACHE
      (getLine State.init (Address.ofValue 0x0080) true).p_line).dirty = false :=
  ⟨by decide, init_tag_lt, by decide,
   ((read_keeps_clean State.init 0x0080 (by decide) init_tag_lt).2 (by decide)).1⟩

end sacache

/-! ## The victim of a miss -/

namespace sacache

/-- One iteration of the scan keeps `p_lru` on the first line, among those
visited so far, whose incremented counter is largest. -/
theorem scanStep_lru (ad : Address) (p : Nat) (sc : Scan) (i j : Nat) (n : Nat → Nat)
    (hdone : ∀ k, k < i → (sc.CACHE (p + k)).counter = n k)
    (hnext : ((sc.CACHE (p + i)).counter + 1) % 4294967296 = n i)
    (hj : sc.p_lru = p + j) (hji : j ≤ i)
    (hmax : ∀ k, k < i → n k ≤ n j) (hfirst : ∀ k, k < j → n k < n j) :
    ∃ j', (scanStep ad p sc i).p_lru = p + j' ∧ j' ≤ i ∧
      (∀ k, k < i + 1 → n k ≤ n j') ∧ (∀ k, k < j' → n k < n j') ∧
      (∀ k, k < i + 1 → ((scanStep ad p sc i).CACHE (p + k)).counter = n k) ∧
      (∀ k, i + 1 ≤ k → (scanStep ad p sc i).CACHE (p + k) = sc.CACHE (p + k)) := by
  have hC : ∀ k, k < i + 1 → ((scanStep ad p sc i).CACHE (p + k)).counter = n k := by
    intro k hk
    simp only [scanStep, upd]
    by_cases hki : k = i
    · subst hki
      simp [hnext]
    · rw [if_neg (by omega)]
      exact hdone k (by omega)
  have hO : ∀ k, i + 1 ≤ k → (scanStep ad p sc i).CACHE (p + k) = sc.CACHE (p + k) := by
    intro k hk
    simp only [scanStep, upd]
    rw [if_neg (by omega)]
  have hl : (scanStep ad p sc i).p_lru =
      if ((scanStep ad p sc i).CACHE (p + i)).counter >
        ((scanStep ad p sc i).CACHE sc.p_lru).counter then p + i else sc.p_lru := rfl
  rw [hl, hj, hC i (by omega), hC j (by omega)]
  split_ifs with hgt
  · refine ⟨i, rfl, le_refl i, ?_, ?_, hC, hO⟩
    · intro k hk
      by_cases hki : k = i
      · rw [hki]
      · have := hmax k (by omega)
        omega
    · intro k hk
      have := hmax k hk
      omega
  · refine ⟨j, rfl, hji, ?_, hfirst, hC, hO⟩
    intro k hk
    by_cases hki : k = i
    · rw [hki]
      omega
    · exact hmax k (by omega)

/-- The pointer `p_lru` after the scan: the first of the four lines whose
counter, after the increment, is largest. -/
theorem scan_p_lru (ad : Address) (c : Nat → CacheLine) :
    ∃ j, (scan ad c).p_lru = ad.getSet + j ∧ j < 4 ∧
      (∀ k, k < 4 → ((c (ad.getSet + k)).counter + 1) % 4294967296 ≤
        ((c (ad.getSet + j)).counter + 1) % 4294967296) ∧
      (∀ k, k < j → ((c (ad.getSet + k)).counter + 1) % 4294967296 <
        ((c (ad.getSet + j)).counter + 1) % 4294967296) := by
  simp only [scan, range_CACHE_WAYS, List.foldl]
  generalize hn : (fun k => ((c (ad.getSet + k)).counter + 1) % 4294967296) = n
  have hnk : ∀ k, ((c (ad.getSet + k)).counter + 1) % 4294967296 = n k := by
    intro k
    rw [← hn]
  simp only [hnk]
  obtain ⟨j1, hj1, hle1, hmax1, hfirst1, hC1, hO1⟩ :=
    scanStep_lru ad ad.getSet ⟨c, none, ad.getSet⟩ 0 0 n (fun k hk => absurd hk (by omega))
      (hnk 0) rfl (le_refl 0) (fun k hk => absurd hk (by omega))
      (fun k hk => absurd hk (by omega))
  obtain ⟨j2, hj2, hle2, hmax2, hfirst2, hC2, hO2⟩ :=
    scanStep_lru ad ad.getSet _ 1 j1 n hC1 (by rw [hO1 1 (by omega)]; exact hnk 1) hj1
      (by omega) hmax1 hfirst1
  obtain ⟨j3, hj3, hle3, hmax3, hfirst3, hC3, hO3⟩ :=
    scanStep_lru ad ad.getSet _ 2 j2 n hC2
      (by rw [hO2 2 (by omega), hO1 2 (by omega)]; exact hnk 2) hj2 (by omega)
      hmax2 hfirst2
  obtain ⟨j4, hj4, hle4, hmax4, hfirst4, _, _⟩ :=
    scanStep_lru ad ad.getSet _ 3 j3 n hC3
      (by rw [hO3 3 (by omega), hO2 3 (by omega), hO1 3 (by omega)]; exact hnk 3) hj3
      (by omega) hmax3 hfirst3
  exact ⟨j4, hj4, by omega, hmax4, hfirst4⟩

/-- C14: for every state and every address whose access is a miss, the
replaced line (the active line, which receives the tag of the address) is the
first of the four scanned lines whose counter is largest: no scanned line has
a larger counter and every line of lower way index has a smaller one, judged
on the counters after the increment modulo `2 ^ 32`; when no counter of the
set is `2 ^ 32 - 1` the same holds of the counters before the access. -/
theorem lru_victim (s : State) (a : Nat) (isRead : Bool)
    (hmiss : (getLine s (Address.ofValue a) isRead).cacheHit = 0) :
    ∃ j, j < CACHE_WAYS ∧
      (getLine s (Address.ofValue a) isRead).p_line = (Address.ofValue a).getSet + j ∧
      ((getLine s (Address.ofValue a) isRead).state.CACHE
        (getLine s (Address.ofValue a) isRead).p_line).tag = (Address.ofValue a).getTag % 256 ∧
      (∀ k, k < CACHE_WAYS →
        ((s.CACHE ((Address.ofValue a).getSet + k)).counter + 1) % 4294967296 ≤
          ((s.CACHE ((Address.ofValue a).getSet + j)).counter + 1) % 4294967296) ∧
      (∀ k, k < j →
        ((s.CACHE ((Address.ofValue a).getSet + k)).counter + 1) % 4294967296 <
          ((s.CACHE ((Address.ofValue a).getSet + j)).counter + 1) % 4294967296) ∧
      ((∀ k, k < CACHE_WAYS → (s.CACHE ((Address.ofValue a).getSet + k)).counter < 4294967295) →
        (∀ k, k < CACHE_WAYS → (s.CACHE ((Address.ofValue a).getSet + k)).counter ≤
          (s.CACHE ((Address.ofValue a).getSet + j)).counter) ∧
        (∀ k, k < j → (s.CACHE ((Address.ofValue a).getSet + k)).counter <
          (s.CACHE ((Address.ofValue a).getSet + j)).counter)) := by
  generalize Address.ofValue a = ad at hmiss ⊢
  have hnone : (scan ad s.CACHE).p_line = none := by
    rw [getLine_cacheHit] at hmiss
    cases h : (scan ad s.CACHE).p_line with
    | none => rfl
    | some p => simp [h] at hmiss
  obtain ⟨j, hj, hj4, hmax, hfirst⟩ := scan_p_lru ad s.CACHE
  simp only [CACHE_WAYS]
  refine ⟨j, hj4, ?_, ?_, hmax, hfirst, ?_⟩
  · rw [getLine_p_line_miss s ad isRead hnone, hj]
  · rw [getLine_tag_p_line, if_pos hmiss]
  · intro hw
    have hwj := hw j hj4
    constructor
    · intro k hk
      have h1 := hmax k hk
      have h2 := hw k hk
      omega
    · intro k hk
      have h1 := hfirst k hk
      have h2 := hw k (by omega)
      omega

/-- Instance of C14: after reads of `0x0080`, `0x0100`, `0x0180`, `0x0200`
and `0x0080` again on the initial state, the read of `0x0280` misses and
replaces a line of set 0 whose counter is largest. -/
theorem lru_victim_witness :
    (getLine (run State.init [⟨0x0080, 0, 0⟩, ⟨0x0100, 0, 0⟩, ⟨0x0180, 0, 0⟩, ⟨0x0200, 0, 0⟩,
      ⟨0x0080, 0, 0⟩]) (Address.ofValue 0x0280) true).cacheHit = 0 ∧
    (getLine (run State.init [⟨0x0080, 0, 0⟩, ⟨0x0100, 0, 0⟩, ⟨0x0180, 0, 0⟩, ⟨0x0200, 0, 0⟩,
      ⟨0x0080, 0, 0⟩]) (Address.ofValue 0x0280) true).p_line = 1 ∧
    ∃ j, j < CACHE_WAYS ∧
      (getLine (run State.init [⟨0x0080, 0, 0⟩, ⟨0x0100, 0, 0⟩, ⟨0x0180, 0, 0⟩, ⟨0x0200, 0, 0⟩,
        ⟨0x0080, 0, 0⟩]) (Address.ofValue 0x0280) true).p_line =
        (Address.ofValue 0x0280).getSet + j :=
  ⟨by decide, by decide,
   (lru_victim (run State.init [⟨0x0080, 0, 0⟩, ⟨0x0100, 0, 0⟩, ⟨0x0180, 0, 0⟩, ⟨0x0200, 0, 0⟩,
      ⟨0x0080, 0, 0⟩]) 0x0280 true (by decide)).imp (fun _ h => ⟨h.1, h.2.1⟩)⟩

end sacache

/-! ## Tags within the lines of one set -/

namespace sacache

/-- Every tag stored after a trace is a byte. -/
theorem run_tag_lt (pre : List Rec) (k : Nat) : ((run State.init pre).CACHE k).tag < 256 := by
  rcases run_tag_origin pre k with h | ⟨q, _, hq⟩
  · rw [h]
    decide
  · rw [← hq]
    exact Nat.mod_lt _ (by decide)

/-- On a miss none of the four scanned lines stores the tag of the address. -/
theorem getLine_miss_no_match (s : State) (ad : Address) (isRead : Bool)
    (hmiss : (getLine s ad isRead).cacheHit = 0) (i : Nat) (hi : i < 4) :
    (s.CACHE (ad.getSet + i)).tag ≠ ad.getTag := by
  have hnone : (scan ad s.CACHE).p_line = none := by
    rw [getLine_cacheHit] at hmiss
    cases h : (scan ad s.CACHE).p_line with
    | none => rfl
    | some p => simp [h] at hmiss
  exact scan_p_line_none ad s.CACHE hnone i hi

/-- On a hit the active line stores the tag of the address. -/
theorem getLine_hit_tag (s : State) (ad : Address) (isRead : Bool)
    (hhit : (getLine s ad isRead).cacheHit = 1) :
    (s.CACHE (getLine s ad isRead).p_line).tag = ad.getTag := by
  cases h : (scan ad s.CACHE).p_line with
  | none => simp [getLine_cacheHit, h] at hhit
  | some p =>
    rw [getLine_p_line_hit s ad isRead p h]
    exact (scan_p_line_some ad s.CACHE p h).2

/-- Tags after one dispatched record whose address is below `0x8000`: the
replaced line of a miss receives the tag of the address, every other tag is
unchanged. -/
theorem dispatch_tag_small (s : State) (r : Rec) (k : Nat) (ha : r.addr < 32768) :
    ((dispatch s r).CACHE k).tag =
      if k = (getLine s (Address.ofValue r.addr) false).p_line ∧
          (getLine s (Address.ofValue r.addr) false).cacheHit = 0 then
        (Address.ofValue r.addr).getTag
      else (s.CACHE k).tag := by
  have htag : (Address.ofValue r.addr).getTag % 256 = (Address.ofValue r.addr).getTag := by
    simp only [Address.getTag, Address.ofValue_tag r.addr (by omega)]
    omega
  simp only [dispatch]
  generalize Address.ofValue r.addr = ad at htag ⊢
  have hsame : ∀ b, (getLine s ad b).p_line = (getLine s ad false).p_line := fun _ => rfl
  have hsameh : ∀ b, (getLine s ad b).cacheHit = (getLine s ad false).cacheHit := fun _ => rfl
  have key : ∀ b, ((getLine s ad b).state.CACHE k).tag =
      if k = (getLine s ad false).p_line ∧ (getLine s ad false).cacheHit = 0 then ad.getTag
      else (s.CACHE k).tag := by
    intro b
    by_cases hk : k = (getLine s ad false).p_line
    · rw [hk]
      have h := getLine_tag_p_line s ad b
      rw [hsame b, hsameh b, htag] at h
      rw [h]
      split_ifs with h1 h2 h3
      · rfl
      · exact absurd ⟨rfl, h1⟩ h2
      · exact absurd h3.2 h1
      · rfl
    · rw [getLine_CACHE_other s ad b k (by rw [hsame b]; exact hk), scan_tag,
        if_neg (fun hc => hk hc.1)]
  split_ifs with hop hpos hpos
  · rw [write_CACHE, if_pos hpos.1, htag]
  · rw [write_CACHE]
    by_cases hk : k = (getLine s ad false).p_line
    · rw [if_pos hk, htag, hk]
      rcases getLine_cacheHit_cases s ad false with h0 | h1
      · exact absurd ⟨hk, h0⟩ hpos
      · exact (getLine_hit_tag s ad false h1).symm
    · rw [if_neg hk]
      have h := key false
      rw [if_neg hpos] at h
      exact h
  · have h := key true
    rw [if_pos hpos] at h
    exact h
  · have h := key true
    rw [if_neg hpos] at h
    exact h

/-- C13, as stated, fails after the single access `read(0x0080)` (tag 1,
set 0) on the zero-initialised cache: the access replaces line 0 of the set,
and the lines 1 and 2 of the set both still store the tag 0. -/
theorem zero_tag_not_unique :
    ¬ (∀ i j, i < CACHE_WAYS → j < CACHE_WAYS →
      ((run State.init [⟨0x0080, 0, 0⟩]).CACHE (0 + i)).tag =
        ((run State.init [⟨0x0080, 0, 0⟩]).CACHE (0 + j)).tag →
      i = j) := by
  intro h
  exact absurd (h 1 2 (by decide) (by decide) (by decide)) (by decide)

/-- Two traces after which the lines 0 and 1, both scanned for set 0, store
the same tag 1: the reads of `0x0080` (set 0) and `0x0088` (set 1, whose
lines overlap those of set 0), and the reads of `0x0080` and `0x8080` (set 0,
tag 257, stored in a byte as 1). -/
theorem nonzero_tag_duplicates :
    (List.range 4).map (fun i => ((run State.init [⟨0x0080, 0, 0⟩, ⟨0x0088, 0, 0⟩]).CACHE i).tag) =
      [1, 1, 0, 0] ∧
    (List.range 4).map (fun i => ((run State.init [⟨0x0080, 0, 0⟩, ⟨0x8080, 0, 0⟩]).CACHE i).tag) =
      [1, 1, 0, 0] := by
  decide

/-- C13, amended: in every state reached from the zero-initialised cache by
read and write accesses that all go to addresses of one set below `0x8000`,
at most one of the four lines scanned for that set stores any given tag
other than 0. -/
theorem nonzero_tags_unique (set : Nat) (pre : List Rec)
    (hpre : ∀ r, r ∈ pre → r.addr < 32768 ∧ (Address.ofValue r.addr).getSet = set)
    (i j : Nat) (hi : i < CACHE_WAYS) (hj : j < CACHE_WAYS)
    (heq : ((run State.init pre).CACHE (set + i)).tag =
      ((run State.init pre).CACHE (set + j)).tag)
    (hnz : ((run State.init pre).CACHE (set + i)).tag ≠ 0) : i = j := by
  simp only [CACHE_WAYS] at hi hj
  induction pre using List.reverseRecOn generalizing i j with
  | nil => exact absurd rfl hnz
  | append_singleton l r ih =>
    have hr := hpre r (by simp)
    have ih2 := ih (fun q hq => hpre q (List.mem_append_left _ hq))
    rw [run_append_singleton] at heq hnz
    rw [dispatch_tag_small _ r _ hr.1] at heq hnz
    rw [dispatch_tag_small _ r _ hr.1] at heq
    obtain ⟨j0, hj0, hp⟩ := getLine_p_line_mem (run State.init l) (Address.ofValue r.addr) false
    simp only [CACHE_WAYS] at hj0
    rw [hr.2] at hp
    rcases getLine_cacheHit_cases (run State.init l) (Address.ofValue r.addr) false with hm | hh
    · have hno : ∀ k, k < 4 →
          ((run State.init l).CACHE (set + k)).tag ≠ (Address.ofValue r.addr).getTag := by
        intro k hk
        have h := getLine_miss_no_match (run State.init l) (Address.ofValue r.addr) false hm k hk
        rw [hr.2] at h
        exact h
      rw [hp] at heq hnz
      simp only [hm, and_true] at heq hnz
      by_cases hij0 : i = j0
      · by_cases hjj0 : j = j0
        · rw [hij0, hjj0]
        · rw [if_pos (by rw [hij0]), if_neg (by omega)] at heq
          exact absurd heq.symm (hno j hj)
      · by_cases hjj0 : j = j0
        · rw [if_neg (by omega), if_pos (by rw [hjj0])] at heq
          exact absurd heq (hno i hi)
        · rw [if_neg (by omega), if_neg (by omega)] at heq
          rw [if_neg (by omega)] at hnz
          exact ih2 i j hi hj heq hnz
    · have hne : ¬ ((getLine (run State.init l) (Address.ofValue r.addr) false).cacheHit = 0) := by
        rw [hh]
        decide
      rw [if_neg (fun hc => hne hc.2), if_neg (fun hc => hne hc.2)] at heq
      rw [if_neg (fun hc => hne hc.2)] at hnz
      exact ih2 i j hi hj heq hnz

/-- Instance of the amended C13: after `write(0x0080, 1)` and `read(0x0100)`,
both of set 0, line 0 of the set stores a tag other than 0 and is the only
line of the set to do so. -/
theorem nonzero_tags_unique_witness :
    (∀ r, r ∈ [(⟨0x0080, 1, 1⟩ : Rec), ⟨0x0100, 0, 0⟩] →
      r.addr < 32768 ∧ (Address.ofValue r.addr).getSet = 0) ∧
    ((run State.init [⟨0x0080, 1, 1⟩, ⟨0x0100, 0, 0⟩]).CACHE (0 + 0)).tag ≠ 0 ∧
    (∀ j, j < CACHE_WAYS →
      ((run State.init [⟨0x0080, 1, 1⟩, ⟨0x0100, 0, 0⟩]).CACHE (0 + 0)).tag =
        ((run State.init [⟨0x0080, 1, 1⟩, ⟨0x0100, 0, 0⟩]).CACHE (0 + j)).tag → 0 = j) :=
  ⟨by decide, by decide,
   fun j hj heq => nonzero_tags_unique 0 [⟨0x0080, 1, 1⟩, ⟨0x0100, 0, 0⟩] (by decide) 0 j
     (by decide) hj heq (by decide)⟩

end sacache

/-! ## The clock algorithm of `vm` -/

namespace vm

/-- A call of `accessPageTable` on an address for which `find` gives an
index of the array: the test of the present bit and its two branches. -/
theorem accessPageTable_inside (fuel : Nat) (s : State) (address : Nat)
    (h0 : 0 ≤ find s.pageTable address) (h16 : find s.pageTable address < 16) :
    accessPageTable fuel s address =
      if (s.pageTable (find s.pageTable address)).present ≠ 0 then
        some ⟨⟨s.pageTable,
          upd s.RAM (toUnsignedLong (s.pageTable (find s.pageTable address)).frameNumber)
            { s.RAM (toUnsignedLong (s.pageTable (find s.pageTable address)).frameNumber)
              with use := 1 },
          s.cursor⟩, [find s.pageTable address, find s.pageTable address],
          [toUnsignedLong (s.pageTable (find s.pageTable address)).frameNumber]⟩
      else
        clock address (find s.pageTable address) fuel
          { state := s, pageTableIdx := [find s.pageTable address], ramIdx := [] } := by
  have hg : ¬ (find s.pageTable address < 0 ∨
      ((PAGE_TABLE_LINES : Nat) : Int) ≤ find s.pageTable address) := by
    simp only [PAGE_TABLE_LINES]
    push_cast
    omega
  simp only [accessPageTable, if_neg hg]

/-- A call of `accessPageTable` on an address whose page is not listed has no
result, whatever the bound on the loop. -/
theorem accessPageTable_outside (fuel : Nat) (s : State) (address : Nat)
    (h : find s.pageTable address = -1) : accessPageTable fuel s address = none := by
  simp [accessPageTable, h]

/-- An iteration of the loop on a frame whose use bit is set clears the bit,
advances `cursor` and goes on. -/
theorem clock_pass (address : Nat) (pageNumber : Int) (fuel : Nat) (a : Access)
    (h : (a.state.RAM (a.state.cursor % 4)).use ≠ 0) :
    clock address pageNumber (fuel + 1) a =
      clock address pageNumber fuel
        { state :=
            { pageTable := a.state.pageTable
              RAM := upd a.state.RAM (a.state.cursor % 4)
                { a.state.RAM (a.state.cursor % 4) with use := 0 }
              cursor := a.state.cursor + 1 }
          pageTableIdx := a.pageTableIdx
          ramIdx := a.ramIdx ++
            [a.state.cursor % 4, a.state.cursor % 4, a.state.cursor % 4] } := by
  simp [clock, RAM_FRAME_CT, upd, h]

/-- An iteration of the loop on a frame whose use bit is clear sets the bit,
marks the page of the frame absent, loads the accessed page into the frame
and leaves the loop. -/
theorem clock_select (address : Nat) (pageNumber : Int) (fuel : Nat) (a : Access)
    (h : (a.state.RAM (a.state.cursor % 4)).use = 0) :
    clock address pageNumber (fuel + 1) a =
      some
        { state :=
            { pageTable :=
                updZ
                  (updZ a.state.pageTable
                    (find a.state.pageTable (a.state.RAM (a.state.cursor % 4)).pageAddress)
                    { a.state.pageTable
                        (find a.state.pageTable (a.state.RAM (a.state.cursor % 4)).pageAddress)
                      with present := 0 })
                  pageNumber
                  { address := (updZ a.state.pageTable
                      (find a.state.pageTable (a.state.RAM (a.state.cursor % 4)).pageAddress)
                      { a.state.pageTable
                          (find a.state.pageTable (a.state.RAM (a.state.cursor % 4)).pageAddress)
                        with present := 0 } pageNumber).address
                    frameNumber := ((a.state.cursor % 4 : Nat) : Int)
                    present := 1 }
              RAM := upd a.state.RAM (a.state.cursor % 4)
                { pageAddress := address &&& 0xFFFFFFFFFFFFF000, use := 1 }
              cursor := a.state.cursor + 1 }
          pageTableIdx := a.pageTableIdx ++
            [find a.state.pageTable (a.state.RAM (a.state.cursor % 4)).pageAddress, pageNumber,
              pageNumber]
          ramIdx := a.ramIdx ++ [a.state.cursor % 4, a.state.cursor % 4, a.state.cursor % 4,
            a.state.cursor % 4, a.state.cursor % 4] } := by
  simp only [clock, RAM_FRAME_CT, upd, h]
  simp only [if_true, ne_eq, not_true_eq_false, if_false, one_ne_zero, not_false_eq_true,
    Option.some.injEq]
  congr 2
  · funext k
    simp only [updZ]
    split_ifs <;> rfl
  · funext k
    simp only [upd]
    split_ifs <;> rfl

/-- An iteration that passes a frame, by its effect. -/
theorem clock_pass_spec (address : Nat) (pageNumber : Int) (a : Access)
    (h : (a.state.RAM (a.state.cursor % 4)).use ≠ 0) :
    ∃ a1 : Access, (∀ fuel, clock address pageNumber (fuel + 1) a =
        clock address pageNumber fuel a1) ∧
      a1.state.cursor = a.state.cursor + 1 ∧
      a1.state.pageTable = a.state.pageTable ∧
      ∀ f, a1.state.RAM f =
        if f = a.state.cursor % 4 then { a.state.RAM f with use := 0 } else a.state.RAM f := by
  refine ⟨_, fun fuel => clock_pass address pageNumber fuel a h, rfl, rfl, ?_⟩
  intro f
  simp only [upd]
  split_ifs with hf
  · rw [hf]
  · rfl

/-- An iteration that selects a frame, by its effect on `RAM` and `cursor`. -/
theorem clock_select_spec (address : Nat) (pageNumber : Int) (a : Access)
    (h : (a.state.RAM (a.state.cursor % 4)).use = 0) :
    ∃ r : Access, (∀ fuel, clock address pageNumber (fuel + 1) a = some r) ∧
      r.state.cursor = a.state.cursor + 1 ∧
      ∀ f, r.state.RAM f =
        if f = a.state.cursor % 4 then ⟨address &&& 0xFFFFFFFFFFFFF000, 1⟩ else a.state.RAM f := by
  refine ⟨_, fun fuel => clock_select address pageNumber fuel a h, rfl, ?_⟩
  intro f
  simp only [upd]

/-- More fuel does not change the result of the loop. -/
theorem clock_mono (address : Nat) (pageNumber : Int) (fuel : Nat) :
    ∀ (a r : Access), clock address pageNumber fuel a = some r →
      clock address pageNumber (fuel + 1) a = some r := by
  induction fuel with
  | zero =>
    intro a r h
    simp [clock] at h
  | succ n ih =>
    intro a r h
    by_cases hu : (a.state.RAM (a.state.cursor % 4)).use = 0
    · rw [clock_select address pageNumber n a hu] at h
      rw [clock_select address pageNumber (n + 1) a hu]
      exact h
    · rw [clock_pass address pageNumber n a hu] at h
      rw [clock_pass address pageNumber (n + 1) a hu]
      exact ih _ r h

/-- The result of the loop with enough fuel is its result with any more fuel. -/
theorem clock_mono_le (address : Nat) (pageNumber : Int) (a r : Access) (n fuel : Nat)
    (h : clock address pageNumber n a = some r) (hle : n ≤ fuel) :
    clock address pageNumber fuel a = some r := by
  induction fuel with
  | zero =>
    have h0 : n = 0 := by omega
    rw [h0] at h
    exact h
  | succ m ih =>
    by_cases hn : n = m + 1
    · rw [← hn]
      exact h
    · exact clock_mono address pageNumber m a r (ih (by omega))

/-- The loop of `accessPageTable` from any state: it leaves after `n`
iterations, `1 ≤ n ≤ 5`, having passed (and cleared) `n - 1` frames whose use
bit was set and selected the next frame in cyclic order. -/
theorem clock_spec (address : Nat) (pageNumber : Int) (a : Access) :
    ∃ n r, 1 ≤ n ∧ n ≤ 5 ∧
      clock address pageNumber n a = some r ∧
      clock address pageNumber (n - 1) a = none ∧
      r.state.cursor = a.state.cursor + n ∧
      (∀ k, k + 1 < n → (a.state.RAM ((a.state.cursor + k) % 4)).use ≠ 0) ∧
      (n ≤ 4 → (a.state.RAM ((a.state.cursor + (n - 1)) % 4)).use = 0) ∧
      r.state.RAM ((a.state.cursor + (n - 1)) % 4) = ⟨address &&& 0xFFFFFFFFFFFFF000, 1⟩ ∧
      (∀ k, k + 1 < n → (a.state.cursor + k) % 4 ≠ (a.state.cursor + (n - 1)) % 4 →
        r.state.RAM ((a.state.cursor + k) % 4) =
          { a.state.RAM ((a.state.cursor + k) % 4) with use := 0 }) ∧
      (∀ f, (∀ k, k < n → f ≠ (a.state.cursor + k) % 4) → r.state.RAM f = a.state.RAM f) := by
  by_cases h0 : (a.state.RAM ((a.state.cursor + 0) % 4)).use = 0
  · -- the first frame is selected
    obtain ⟨r, e1, c1, R1⟩ := clock_select_spec address pageNumber a h0
    refine ⟨1, r, le_refl 1, by omega, e1 0, rfl, c1, ?_, fun _ => h0, ?_, ?_, ?_⟩
    · intro k hk
      omega
    · rw [R1, if_pos (by omega)]
    · intro k hk
      omega
    · intro f hf
      rw [R1, if_neg (by have := hf 0 (by omega); omega)]
  obtain ⟨a1, e1, c1, p1, R1⟩ := clock_pass_spec address pageNumber a h0
  by_cases h1 : (a.state.RAM ((a.state.cursor + 1) % 4)).use = 0
  · have h1' : (a1.state.RAM (a1.state.cursor % 4)).use = 0 := by
      rw [c1, R1, if_neg (by omega)]
      exact h1
    obtain ⟨r, e2, c2, R2⟩ := clock_select_spec address pageNumber a1 h1'
    rw [c1] at R2
    refine ⟨2, r, by omega, by omega, by rw [e1 1]; exact e2 0, by rw [e1 0]; rfl,
      by omega, ?_, fun _ => h1, ?_, ?_, ?_⟩
    · intro k hk
      have hk0 : k = 0 := by omega
      rw [hk0]
      exact h0
    · rw [R2, if_pos rfl]
    · intro k hk hne
      have hk0 : k = 0 := by omega
      rw [hk0, R2, if_neg (by omega), R1, if_pos (by omega)]
    · intro f hf
      have f0 := hf 0 (by omega)
      have f1 := hf 1 (by omega)
      rw [R2, if_neg f1, R1, if_neg (by omega)]
  have h1' : (a1.state.RAM (a1.state.cursor % 4)).use ≠ 0 := by
    rw [c1, R1, if_neg (by omega)]
    exact h1
  obtain ⟨a2, e2, c2, p2, R2⟩ := clock_pass_spec address pageNumber a1 h1'
  rw [c1] at R2 c2
  by_cases h2 : (a.state.RAM ((a.state.cursor + 2) % 4)).use = 0
  · have h2' : (a2.state.RAM (a2.state.cursor % 4)).use = 0 := by
      rw [c2, R2, if_neg (by omega), R1, if_neg (by omega)]
      exact h2
    obtain ⟨r, e3, c3, R3⟩ := clock_select_spec address pageNumber a2 h2'
    rw [c2] at R3
    refine ⟨3, r, by omega, by omega, by rw [e1 2, e2 1]; exact e3 0,
      by rw [e1 1, e2 0]; rfl, by omega, ?_, fun _ => h2, ?_, ?_, ?_⟩
    · intro k hk
      have hk0 : k = 0 ∨ k = 1 := by omega
      rcases hk0 with hk0 | hk0 <;> rw [hk0]
      · exact h0
      · exact h1
    · rw [R3, if_pos rfl]
    · intro k hk hne
      have hk0 : k = 0 ∨ k = 1 := by omega
      rcases hk0 with hk0 | hk0 <;> rw [hk0]
      · rw [R3, if_neg (by omega), R2, if_neg (by omega), R1, if_pos (by omega)]
      · rw [R3, if_neg (by omega), R2, if_pos rfl, R1, if_neg (by omega)]
    · intro f hf
      have f0 := hf 0 (by omega)
      have f1 := hf 1 (by omega)
      have f2 := hf 2 (by omega)
      rw [R3, if_neg f2, R2, if_neg f1, R1, if_neg (by omega)]
  have h2' : (a2.state.RAM (a2.state.cursor % 4)).use ≠ 0 := by
    rw [c2, R2, if_neg (by omega), R1, if_neg (by omega)]
    exact h2
  obtain ⟨a3, e3, c3, p3, R3⟩ := clock_pass_spec address pageNumber a2 h2'
  rw [c2] at R3 c3
  by_cases h3 : (a.state.RAM ((a.state.cursor + 3) % 4)).use = 0
  · have h3' : (a3.state.RAM (a3.state.cursor % 4)).use = 0 := by
      rw [c3, R3, if_neg (by omega), R2, if_neg (by omega), R1, if_neg (by omega)]
      exact h3
    obtain ⟨r, e4, c4, R4⟩ := clock_select_spec address pageNumber a3 h3'
    rw [c3] at R4
    refine ⟨4, r, by omega, by omega, by rw [e1 3, e2 2, e3 1]; exact e4 0,
      by rw [e1 2, e2 1, e3 0]; rfl, by omega, ?_, fun _ => h3, ?_, ?_, ?_⟩
    · intro k hk
      have hk0 : k = 0 ∨ k = 1 ∨ k = 2 := by omega
      rcases hk0 with hk0 | hk0 | hk0 <;> rw [hk0]
      · exact h0
      · exact h1
      · exact h2
    · rw [R4, if_pos rfl]
    · intro k hk hne
      have hk0 : k = 0 ∨ k = 1 ∨ k = 2 := by omega
      rcases hk0 with hk0 | hk0 | hk0 <;> rw [hk0]
      · rw [R4, if_neg (by omega), R3, if_neg (by omega), R2, if_neg (by omega), R1,
          if_pos (by omega)]
      · rw [R4, if_neg (by omega), R3, if_neg (by omega), R2, if_pos rfl, R1, if_neg (by omega)]
      · rw [R4, if_neg (by omega), R3, if_pos rfl, R2, if_neg (by omega), R1, if_neg (by omega)]
    · intro f hf
      have f0 := hf 0 (by omega)
      have f1 := hf 1 (by omega)
      have f2 := hf 2 (by omega)
      have f3 := hf 3 (by omega)
      rw [R4, if_neg f3, R3, if_neg f2, R2, if_neg f1, R1, if_neg (by omega)]
  -- all four use bits were set: the fifth iteration selects the first frame again
  have h3' : (a3.state.RAM (a3.state.cursor % 4)).use ≠ 0 := by
    rw [c3, R3, if_neg (by omega), R2, if_neg (by omega), R1, if_neg (by omega)]
    exact h3
  obtain ⟨a4, e4, c4, p4, R4⟩ := clock_pass_spec address pageNumber a3 h3'
  rw [c3] at R4 c4
  have h4' : (a4.state.RAM (a4.state.cursor % 4)).use = 0 := by
    rw [c4, R4, if_neg (by omega), R3, if_neg (by omega), R2, if_neg (by omega), R1,
      if_pos (by omega)]
  obtain ⟨r, e5, c5, R5⟩ := clock_select_spec address pageNumber a4 h4'
  rw [c4] at R5
  refine ⟨5, r, by omega, by omega, by rw [e1 4, e2 3, e3 2, e4 1]; exact e5 0,
    by rw [e1 3, e2 2, e3 1, e4 0]; rfl, by omega, ?_, fun h => absurd h (by omega), ?_, ?_, ?_⟩
  · intro k hk
    have hk0 : k = 0 ∨ k = 1 ∨ k = 2 ∨ k = 3 := by omega
    rcases hk0 with hk0 | hk0 | hk0 | hk0 <;> rw [hk0]
    · exact h0
    · exact h1
    · exact h2
    · exact h3
  · rw [R5, if_pos (by omega)]
  · intro k hk hne
    have hk0 : k = 1 ∨ k = 2 ∨ k = 3 := by omega
    rcases hk0 with hk0 | hk0 | hk0 <;> rw [hk0]
    · rw [R5, if_neg (by omega), R4, if_neg (by omega), R3, if_neg (by omega), R2, if_pos rfl,
        R1, if_neg (by omega)]
    · rw [R5, if_neg (by omega), R4, if_neg (by omega), R3, if_pos rfl, R2, if_neg (by omega),
        R1, if_neg (by omega)]
    · rw [R5, if_neg (by omega), R4, if_pos rfl, R3, if_neg (by omega), R2, if_neg (by omega),
        R1, if_neg (by omega)]
  · intro f hf
    have f0 := hf 0 (by omega)
    have f1 := hf 1 (by omega)
    have f2 := hf 2 (by omega)
    have f3 := hf 3 (by omega)
    rw [R5, if_neg (by omega), R4, if_neg f3, R3, if_neg f2, R2, if_neg f1, R1,
      if_neg (by omega)]

/-- C20 (index safety), evaluated on the first access after `init` has loaded
the 16 page addresses `0x1000`, `0x2000`, ..., `0x10000`: the accessed address
`0x1234` belongs to the listed page `0x1000` (`find` gives 0), the access is a
fault that selects frame 0, whose `pageAddress` is still 0, a page that is not
listed, so `find` gives `-1` and `pageTable[oldPageNumber].present = 0` is a
store at subscript `-1`: the subscripts used on `pageTable` are 0, -1, 0, 0
(those used on `RAM` are all 0). -/
theorem first_fault_subscript_minus_one :
    find (init [0x1000, 0x2000, 0x3000, 0x4000, 0x5000, 0x6000, 0x7000, 0x8000, 0x9000, 0xa000,
      0xb000, 0xc000, 0xd000, 0xe000, 0xf000, 0x10000] State.zero).pageTable 0x1234 = 0 ∧
    find (init [0x1000, 0x2000, 0x3000, 0x4000, 0x5000, 0x6000, 0x7000, 0x8000, 0x9000, 0xa000,
      0xb000, 0xc000, 0xd000, 0xe000, 0xf000, 0x10000] State.zero).pageTable
      ((init [0x1000, 0x2000, 0x3000, 0x4000, 0x5000, 0x6000, 0x7000, 0x8000, 0x9000, 0xa000,
        0xb000, 0xc000, 0xd000, 0xe000, 0xf000, 0x10000] State.zero).RAM 0).pageAddress = -1 ∧
    (accessPageTable 5 (init [0x1000, 0x2000, 0x3000, 0x4000, 0x5000, 0x6000, 0x7000, 0x8000,
      0x9000, 0xa000, 0xb000, 0xc000, 0xd000, 0xe000, 0xf000, 0x10000] State.zero)
      0x1234).map (fun r => (r.pageTableIdx, r.ramIdx)) =
      some ([0, -1, 0, 0], [0, 0, 0, 0, 0]) := by
  decide

end vm

/-! ## The residency invariant of `vm` -/

namespace vm

/-- Masking with `~0xfff` on 64 bits clears the low twelve bits. -/
theorem and_not_fff (a : Nat) (h : a < 18446744073709551616) :
    a &&& 0xFFFFFFFFFFFFF000 = a / 4096 * 4096 := by
  have e : (0xFFFFFFFFFFFFF000 : Nat) = (2 ^ 52 - 1) <<< 12 := by decide
  rw [e]
  apply Nat.eq_of_testBit_eq
  intro i
  have e2 : a / 4096 * 4096 = (a >>> 12) <<< 12 := by
    rw [Nat.shiftRight_eq_div_pow, Nat.shiftLeft_eq]
  rw [Nat.testBit_and, Nat.testBit_shiftLeft, Nat.testBit_two_pow_sub_one, e2,
    Nat.testBit_shiftLeft, Nat.testBit_shiftRight]
  by_cases h12 : 12 ≤ i
  · have e3 : 12 + (i - 12) = i := by omega
    simp only [h12, e3, ge_iff_le, decide_True, Bool.true_and]
    by_cases hn : i - 12 < 52
    · simp [hn]
    · have h64 : a < 2 ^ 64 := h
      have hlt : a < 2 ^ i :=
        lt_of_lt_of_le h64 (Nat.pow_le_pow_right (by decide) (by omega))
      simp [hn, Nat.testBit_lt_two_pow hlt]
  · simp [h12]

/-- The mask leaves a 4 KB aligned 64-bit address as it is. -/
theorem and_not_fff_aligned (a : Nat) (h : a < 18446744073709551616) (ha : a % 4096 = 0) :
    a &&& 0xFFFFFFFFFFFFF000 = a := by
  rw [and_not_fff a h]
  omega

/-- The function `find` as a search over the indices 0..15. -/
theorem find_eq (pt : Int → PageTableEntry) (address : Nat) :
    find pt address =
      match (List.range PAGE_TABLE_LINES).find?
        (fun i : Nat => decide ((pt (i : Int)).address = address &&& 0xFFFFFFFFFFFFF000)) with
      | some i => (i : Int)
      | none => -1 := by
  have hl : (do let a ← List.range PAGE_TABLE_LINES; pure (a : Int)) =
      (List.range PAGE_TABLE_LINES).map (fun a : Nat => (a : Int)) := by
    decide
  have hcomp : ((fun i : Int => decide ((pt i).address = address &&& 0xFFFFFFFFFFFFF000)) ∘
      fun a : Nat => (a : Int)) =
      fun i : Nat => decide ((pt (i : Int)).address = address &&& 0xFFFFFFFFFFFFF000) := rfl
  simp only [find, hl, List.find?_map, hcomp]
  cases (List.range PAGE_TABLE_LINES).find?
      (fun i : Nat => decide ((pt (i : Int)).address = address &&& 0xFFFFFFFFFFFFF000)) with
  | none => rfl
  | some j => rfl

/-- What `find` returns: `-1` when no entry 0..15 holds the page of the
address, otherwise an index in 0..15 whose entry holds it. -/
theorem find_cases (pt : Int → PageTableEntry) (address : Nat) :
    (find pt address = -1 ∧
      ∀ i : Nat, i < 16 → (pt i).address ≠ address &&& 0xFFFFFFFFFFFFF000) ∨
    ∃ i : Nat, i < 16 ∧ find pt address = i ∧
      (pt i).address = address &&& 0xFFFFFFFFFFFFF000 := by
  rw [find_eq]
  cases h : (List.range PAGE_TABLE_LINES).find?
      (fun i : Nat => decide ((pt (i : Int)).address = address &&& 0xFFFFFFFFFFFFF000)) with
  | none =>
    left
    refine ⟨rfl, ?_⟩
    intro i hi
    have hn := List.find?_eq_none.1 h i (by simp only [PAGE_TABLE_LINES, List.mem_range]; exact hi)
    simpa using hn
  | some j =>
    right
    have hp := List.find?_some h
    have hm := List.mem_of_find?_eq_some h
    simp only [PAGE_TABLE_LINES, List.mem_range] at hm
    exact ⟨j, hm, rfl, by simpa using hp⟩

/-- With pairwise distinct addresses in the entries 0..15, `find` returns the
index of the entry that holds the page of the address. -/
theorem find_of_listed (pt : Int → PageTableEntry) (address i : Nat) (hi : i < 16)
    (hm : (pt i).address = address &&& 0xFFFFFFFFFFFFF000)
    (hdist : ∀ j k : Nat, j < 16 → k < 16 → (pt j).address = (pt k).address → j = k) :
    find pt address = i := by
  rcases find_cases pt address with ⟨_, hno⟩ | ⟨j, hj, hf, hjm⟩
  · exact absurd hm (hno i hi)
  · rw [hf, hdist j i hj hi (by rw [hjm, hm])]

/-- The function `find` reads only the addresses of the entries 0..15. -/
theorem find_congr (pt pt2 : Int → PageTableEntry) (address : Nat)
    (h : ∀ i : Nat, i < 16 → (pt2 i).address = (pt i).address) :
    find pt2 address = find pt address := by
  rw [find_eq, find_eq]
  have hl : ∀ l : List Nat, (∀ i, i ∈ l → i < 16) →
      l.find? (fun i : Nat => decide ((pt2 (i : Int)).address = address &&& 0xFFFFFFFFFFFFF000)) =
      l.find? (fun i : Nat => decide ((pt (i : Int)).address = address &&& 0xFFFFFFFFFFFFF000)) := by
    intro l
    induction l with
    | nil => intro _; rfl
    | cons x xs ih =>
      intro hx
      simp only [List.find?_cons, h x (hx x (by simp))]
      rw [ih (fun i hi => hx i (by simp [hi]))]
  rw [hl _ (fun i hi => by simpa [PAGE_TABLE_LINES] using hi)]

/-- The loop of `init` over the first `n` entries. -/
theorem init_fold (addresses : List Nat) (n : Nat) (pt : Int → PageTableEntry) (k : Int) :
    (List.range n).foldl
      (fun pt (i : Nat) => updZ pt (i : Int) { pt (i : Int) with address := addresses.getD i 0 })
      pt k =
      if 0 ≤ k ∧ k < n then { pt k with address := addresses.getD k.toNat 0 } else pt k := by
  revert k
  induction n with
  | zero =>
    intro k
    simp only [List.range_zero, List.foldl_nil]
    rw [if_neg (by omega)]
  | succ n ih =>
    intro k
    rw [List.range_succ, List.foldl_append]
    simp only [List.foldl_cons, List.foldl_nil, updZ]
    by_cases hk : k = (n : Int)
    · have h1 := ih (n : Int)
      rw [if_neg (by omega)] at h1
      subst hk
      rw [if_pos rfl, if_pos (by omega), h1]
      simp
    · rw [if_neg hk, ih k]
      by_cases hkn : 0 ≤ k ∧ k < (n : Int)
      · rw [if_pos hkn, if_pos (by omega)]
      · rw [if_neg hkn, if_neg (by omega)]

/-- The state after `init`: the entries 0..15 hold the loaded addresses, no
entry is present, and the invariant holds. -/
theorem init_resident (addresses : List Nat) :
    Resident addresses (init addresses State.zero) ∧
    (init addresses State.zero).cursor = 0 := by
  refine ⟨⟨?_, ?_⟩, rfl⟩
  · intro i hi
    simp only [init, PAGE_TABLE_LINES]
    rw [init_fold, if_pos (by omega)]
    simp
  · intro i hi hp
    exfalso
    apply hp
    simp only [init, PAGE_TABLE_LINES]
    rw [init_fold, if_pos (by omega)]
    rfl

/-- What the loop of `accessPageTable` leaves when it ends: for the frame `f`
it selected, the entry that `find` gives for the page of `f` is marked absent,
the entry `pageNumber` names `f` and is marked present, `f` holds the accessed
page with use bit 1, and no other frame has changed its page. -/
theorem clock_result (address : Nat) (pageNumber : Int) (fuel : Nat) :
    ∀ (a r : Access), clock address pageNumber fuel a = some r →
      ∃ f : Nat, f < 4 ∧
        (∀ k : Int, r.state.pageTable k =
          if k = pageNumber then
            { address := (a.state.pageTable pageNumber).address, frameNumber := (f : Int),
              present := 1 }
          else if k = find a.state.pageTable (a.state.RAM f).pageAddress then
            { a.state.pageTable k with present := 0 }
          else a.state.pageTable k) ∧
        r.state.RAM f = ⟨address &&& 0xFFFFFFFFFFFFF000, 1⟩ ∧
        (∀ g, g ≠ f → (r.state.RAM g).pageAddress = (a.state.RAM g).pageAddress) := by
  induction fuel with
  | zero =>
    intro a r h
    simp [clock] at h
  | succ n ih =>
    intro a r h
    by_cases hu : (a.state.RAM (a.state.cursor % 4)).use = 0
    · rw [clock_select address pageNumber n a hu] at h
      injection h with h
      subst h
      refine ⟨a.state.cursor % 4, by omega, ?_, ?_, ?_⟩
      · intro k
        simp only [updZ]
        by_cases hk : k = pageNumber
        · rw [if_pos hk, if_pos hk]
          split_ifs with hpo
          · rw [← hpo]
          · rfl
        · rw [if_neg hk, if_neg hk]
          split_ifs with hko
          · rw [hko]
          · rfl
      · simp [upd]
      · intro g hg
        simp [upd, hg]
    · obtain ⟨a1, e1, _, p1, R1⟩ := clock_pass_spec address pageNumber a hu
      rw [e1 n] at h
      obtain ⟨f, hf, hpt, hram, hrest⟩ := ih a1 r h
      have hpa : ∀ g, (a1.state.RAM g).pageAddress = (a.state.RAM g).pageAddress := by
        intro g
        rw [R1]
        split_ifs <;> rfl
      refine ⟨f, hf, ?_, hram, ?_⟩
      · intro k
        rw [hpt k, p1, hpa f]
      · intro g hg
        rw [hrest g hg, hpa g]

/-- One call of `accessPageTable` on an address whose page is listed, in a
state that satisfies the invariant: with a bound of at least 5 iterations the
call returns, the invariant holds afterwards, `cursor` has advanced by at most
5, and the entry of the page of the address is present. -/
theorem accessPageTable_resident (addresses : List Nat) (s : State) (address fuel : Nat)
    (hdist : ∀ i j : Nat, i < 16 → j < 16 → addresses.getD i 0 = addresses.getD j 0 → i = j)
    (halign : ∀ i : Nat, i < 16 →
      addresses.getD i 0 % 4096 = 0 ∧ addresses.getD i 0 < 18446744073709551616)
    (hlisted : ∃ i : Nat, i < 16 ∧ addresses.getD i 0 = address &&& 0xFFFFFFFFFFFFF000)
    (hfuel : 5 ≤ fuel) (hI : Resident addresses s) :
    ∃ r, accessPageTable fuel s address = some r ∧ Resident addresses r.state ∧
      r.state.cursor ≤ s.cursor + 5 ∧
      ∃ i : Nat, i < 16 ∧ find r.state.pageTable address = i ∧
        (r.state.pageTable i).address = address &&& 0xFFFFFFFFFFFFF000 ∧
        (r.state.pageTable i).present ≠ 0 := by
  obtain ⟨i, hi, hia⟩ := hlisted
  have hd : ∀ j k : Nat, j < 16 → k < 16 →
      (s.pageTable j).address = (s.pageTable k).address → j = k := by
    intro j k hj hk hjk
    rw [hI.table j hj, hI.table k hk] at hjk
    exact hdist j k hj hk hjk
  have him : (s.pageTable i).address = address &&& 0xFFFFFFFFFFFFF000 := by
    rw [hI.table i hi, hia]
  have hfind : find s.pageTable address = i := find_of_listed s.pageTable address i hi him hd
  by_cases hp : (s.pageTable (find s.pageTable address)).present ≠ 0
  · -- the page is present: only a use bit is set
    have hacc : accessPageTable fuel s address =
        some ⟨⟨s.pageTable,
          upd s.RAM (toUnsignedLong (s.pageTable (find s.pageTable address)).frameNumber)
            { s.RAM (toUnsignedLong (s.pageTable (find s.pageTable address)).frameNumber)
              with use := 1 },
          s.cursor⟩, [find s.pageTable address, find s.pageTable address],
          [toUnsignedLong (s.pageTable (find s.pageTable address)).frameNumber]⟩ := by
      rw [accessPageTable_inside fuel s address (by rw [hfind]; omega) (by rw [hfind]; omega),
        if_pos hp]
    refine ⟨_, hacc, ⟨hI.table, ?_⟩, by show s.cursor ≤ s.cursor + 5; omega,
      i, hi, hfind, him, by rw [← hfind]; exact hp⟩
    intro j hj hpj
    obtain ⟨f, hf, hfn, hfa⟩ := hI.resident j hj hpj
    refine ⟨f, hf, hfn, ?_⟩
    show (upd s.RAM _ _ f).pageAddress = _
    rw [← hfa]
    simp only [upd]
    split_ifs with hfx
    · rw [hfx]
    · rfl
  · -- page fault: the clock loop replaces a frame
    have hp0 : (s.pageTable (find s.pageTable address)).present = 0 := by
      by_contra hne
      exact hp hne
    obtain ⟨n, r, _, hn5, hsome, _, hcur, _⟩ :=
      clock_spec address (find s.pageTable address)
        { state := s, pageTableIdx := [find s.pageTable address], ramIdx := [] }
    have hacc : accessPageTable fuel s address = some r := by
      have h1 : accessPageTable fuel s address =
          clock address (find s.pageTable address) fuel
            { state := s, pageTableIdx := [find s.pageTable address], ramIdx := [] } := by
        rw [accessPageTable_inside fuel s address (by rw [hfind]; omega) (by rw [hfind]; omega),
          if_neg hp]
      rw [h1]
      exact clock_mono_le _ _ _ _ n fuel hsome (by omega)
    obtain ⟨f, hf, hpt, hram, hrest⟩ := clock_result address _ n _ r hsome
    simp only [hfind] at hpt
    have htable : ∀ j : Nat, j < 16 → (r.state.pageTable j).address = addresses.getD j 0 := by
      intro j hj
      rw [hpt]
      split_ifs with h1 h2
      · have hji : j = i := by omega
        rw [hji]
        exact hI.table i hi
      · exact hI.table j hj
      · exact hI.table j hj
    refine ⟨r, hacc, ⟨htable, ?_⟩, by rw [hcur]; show s.cursor + n ≤ s.cursor + 5; omega,
      i, hi, ?_, ?_, ?_⟩
    · intro j hj hpj
      rw [hpt] at hpj ⊢
      by_cases hji : (j : Int) = (i : Int)
      · rw [if_pos hji]
        refine ⟨f, hf, rfl, ?_⟩
        rw [hram]
        exact him.symm
      · rw [if_neg hji] at hpj ⊢
        by_cases hjo : (j : Int) = find s.pageTable (s.RAM f).pageAddress
        · rw [if_pos hjo] at hpj
          exact absurd rfl hpj
        · rw [if_neg hjo] at hpj ⊢
          obtain ⟨g, hg, hgn, hga⟩ := hI.resident j hj hpj
          have hgf : g ≠ f := by
            intro hgf
            rw [hgf] at hga
            have hal := halign j hj
            rw [← hI.table j hj] at hal
            have hself : (s.pageTable j).address =
                (s.RAM f).pageAddress &&& 0xFFFFFFFFFFFFF000 := by
              rw [hga, and_not_fff_aligned _ hal.2 hal.1]
            exact hjo (find_of_listed s.pageTable _ j hj hself hd).symm
          exact ⟨g, hg, hgn, by rw [hrest g hgf]; exact hga⟩
    · rw [find_congr s.pageTable r.state.pageTable address
        (fun j hj => by rw [htable j hj, hI.table j hj])]
      exact hfind
    · rw [htable i hi, hia]
    · rw [hpt, if_pos rfl]
      exact one_ne_zero

/-- The invariant along a sequence of calls on listed addresses, from any
state that satisfies it: every call returns, the invariant holds at the end,
`cursor` has advanced by at most 5 per call, and the entry of the page of the
last address is present. -/
theorem accesses_resident (addresses : List Nat) (fuel : Nat)
    (hdist : ∀ i j : Nat, i < 16 → j < 16 → addresses.getD i 0 = addresses.getD j 0 → i = j)
    (halign : ∀ i : Nat, i < 16 →
      addresses.getD i 0 % 4096 = 0 ∧ addresses.getD i 0 < 18446744073709551616)
    (hfuel : 5 ≤ fuel) :
    ∀ (trace : List Nat) (s : State), Resident addresses s →
      (∀ a, a ∈ trace → ∃ i : Nat, i < 16 ∧ addresses.getD i 0 = a &&& 0xFFFFFFFFFFFFF000) →
      ∃ s2, accesses fuel s trace = some s2 ∧ Resident addresses s2 ∧
        s2.cursor ≤ s.cursor + 5 * trace.length ∧
        ∀ a, trace.getLast? = some a →
          ∃ i : Nat, i < 16 ∧ find s2.pageTable a = i ∧
            (s2.pageTable i).address = a &&& 0xFFFFFFFFFFFFF000 ∧
            (s2.pageTable i).present ≠ 0 := by
  intro trace
  induction trace with
  | nil =>
    intro s hI _
    refine ⟨s, rfl, hI, by simp, ?_⟩
    intro a ha
    simp at ha
  | cons a rest ih =>
    intro s hI hl
    obtain ⟨r, hacc, hIr, hcur, hlast⟩ :=
      accessPageTable_resident addresses s a fuel hdist halign (hl a (by simp)) hfuel hI
    obtain ⟨s2, hrun, hI2, hcur2, hlast2⟩ :=
      ih r.state hIr (fun b hb => hl b (by simp [hb]))
    have hrun2 : accesses fuel s (a :: rest) = some s2 := by
      simp only [accesses, hacc]
      exact hrun
    refine ⟨s2, hrun2, hI2, ?_, ?_⟩
    · simp only [List.length_cons]
      omega
    · intro b hb
      cases rest with
      | nil =>
        simp only [List.getLast?_singleton, Option.some.injEq] at hb
        simp only [accesses, Option.some.injEq] at hrun
        rw [← hb, ← hrun]
        exact hlast
      | cons c rest2 =>
        rw [List.getLast?_cons_cons] at hb
        exact hlast2 b hb

/-- C21: given 16 page addresses that are pairwise distinct, 4 KB aligned and
fit an `unsigned long`, loaded by `init` into the zero-initialised globals,
and any sequence of addresses whose pages are listed (short enough for
`cursor` not to overflow): every call of `accessPageTable` returns (a bound of
5 iterations of its loop is enough), and in the state reached every entry of
the page table marked present has a `frameNumber` in 0..3 with
`RAM[frameNumber].pageAddress` equal to the address of the entry; and after
the last call the entry that `find` gives for the page of the accessed
address is one of the 16 entries and is marked present. -/
theorem residency (addresses trace : List Nat) (fuel : Nat)
    (hdist : ∀ i j : Nat, i < 16 → j < 16 → addresses.getD i 0 = addresses.getD j 0 → i = j)
    (halign : ∀ i : Nat, i < 16 →
      addresses.getD i 0 % 4096 = 0 ∧ addresses.getD i 0 < 18446744073709551616)
    (hlisted : ∀ a, a ∈ trace →
      ∃ i : Nat, i < 16 ∧ addresses.getD i 0 = a &&& 0xFFFFFFFFFFFFF000)
    (hfuel : 5 ≤ fuel) (hlen : 5 * trace.length < 2147483648) :
    ∃ s, accesses fuel (init addresses State.zero) trace = some s ∧
      s.cursor < 2147483648 ∧
      (∀ i : Nat, i < 16 → (s.pageTable i).present ≠ 0 →
        ∃ f : Nat, f < 4 ∧ (s.pageTable i).frameNumber = f ∧
          (s.RAM f).pageAddress = (s.pageTable i).address) ∧
      (∀ a, trace.getLast? = some a →
        ∃ i : Nat, i < 16 ∧ find s.pageTable a = i ∧
          (s.pageTable i).address = a &&& 0xFFFFFFFFFFFFF000 ∧
          (s.pageTable i).present ≠ 0) := by
  obtain ⟨hI0, hc0⟩ := init_resident addresses
  obtain ⟨s, hrun, hI, hcur, hlast⟩ :=
    accesses_resident addresses fuel hdist halign hfuel trace _ hI0 hlisted
  rw [hc0] at hcur
  exact ⟨s, hrun, by omega, hI.resident, hlast⟩

/-- The page addresses `0x1000`, `0x2000`, ..., `0x10000` are pairwise
distinct. -/
theorem sample_pages_distinct : ∀ i j : Nat, i < 16 → j < 16 →
    [0x1000, 0x2000, 0x3000, 0x4000, 0x5000, 0x6000, 0x7000, 0x8000, 0x9000, 0xa000,
      0xb000, 0xc000, 0xd000, 0xe000, 0xf000, 0x10000].getD i 0 =
    [0x1000, 0x2000, 0x3000, 0x4000, 0x5000, 0x6000, 0x7000, 0x8000, 0x9000, 0xa000,
      0xb000, 0xc000, 0xd000, 0xe000, 0xf000, 0x10000].getD j 0 → i = j := by
  have h : ∀ i : Nat, i < 16 → ∀ j : Nat, j < 16 →
      [0x1000, 0x2000, 0x3000, 0x4000, 0x5000, 0x6000, 0x7000, 0x8000, 0x9000, 0xa000,
        0xb000, 0xc000, 0xd000, 0xe000, 0xf000, 0x10000].getD i 0 =
      [0x1000, 0x2000, 0x3000, 0x4000, 0x5000, 0x6000, 0x7000, 0x8000, 0x9000, 0xa000,
        0xb000, 0xc000, 0xd000, 0xe000, 0xf000, 0x10000].getD j 0 → i = j := by
    decide
  exact fun i j hi hj => h i hi j hj

/-- Instance of C21 for the page addresses `0x1000`, `0x2000`, ..., `0x10000`
and the accesses `0x1234`, `0x2345`, `0x1234`. -/
theorem residency_witness :
    5 ≤ 5 ∧ 5 * [0x1234, 0x2345, 0x1234].length < 2147483648 ∧
    ∃ s, accesses 5 (init [0x1000, 0x2000, 0x3000, 0x4000, 0x5000, 0x6000, 0x7000, 0x8000,
        0x9000, 0xa000, 0xb000, 0xc000, 0xd000, 0xe000, 0xf000, 0x10000] State.zero)
        [0x1234, 0x2345, 0x1234] = some s ∧
      s.cursor < 2147483648 ∧
      (∀ i : Nat, i < 16 → (s.pageTable i).present ≠ 0 →
        ∃ f : Nat, f < 4 ∧ (s.pageTable i).frameNumber = f ∧
          (s.RAM f).pageAddress = (s.pageTable i).address) ∧
      (∀ a, [0x1234, 0x2345, 0x1234].getLast? = some a →
        ∃ i : Nat, i < 16 ∧ find s.pageTable a = i ∧
          (s.pageTable i).address = a &&& 0xFFFFFFFFFFFFF000 ∧
          (s.pageTable i).present ≠ 0) :=
  ⟨by decide, by decide,
   residency [0x1000, 0x2000, 0x3000, 0x4000, 0x5000, 0x6000, 0x7000, 0x8000, 0x9000, 0xa000,
     0xb000, 0xc000, 0xd000, 0xe000, 0xf000, 0x10000] [0x1234, 0x2345, 0x1234] 5
     sample_pages_distinct (by decide) (by decide) (by decide) (by decide)⟩

end vm

/-! ## The clock algorithm on a listed page -/

namespace vm

end vm
